import Mathlib

/-!
Verification of the pyneat NEAT engine core against its specification.

The Python source is shallowly embedded:
* Python dicts become association lists (`List (κ × ν)`) with Python's
  insertion semantics (overwrite in place, append when fresh).
* Stored real scalars (weights, biases, fitnesses) become `ℚ`; only field
  operations are performed on them.  The activation functions themselves
  (which use `exp`, `sin`, ...) are given semantics over `ℝ`.
* Random draws become explicit parameters: an operation that draws from a
  collection takes the drawn element together with a membership hypothesis,
  and a sampled numeric value becomes a plain parameter.
* Fallible operations (dict lookups that may raise `KeyError`, `min` of an
  empty sequence) return `Option`.
-/

namespace PyNeat

/-! ## Configuration constants (src/pyneat/config.py) -/

def MIN_NODE_COUNT : Int := 10
def ELITISM : Nat := 2
def MIN_FITNESS_RANGE : ℚ := 1
def MIN_SPECIES_SIZE : Int := 2
def COMPATIBILITY_THRESHOLD : ℚ := 3
def NODE_DIST_COEFF : ℚ := 1/2
def NODE_DISJOINT_COEFF : ℚ := 1
def EDGE_DIST_COEFF : ℚ := 1/2
def EDGE_DISJOINT_COEFF : ℚ := 1

/-! ## Python dict / list helpers

Python dicts are insertion-ordered maps.  `d[k] = v` overwrites in place
when `k` is present and appends otherwise; `del d[k]` removes the entry;
`d.get(k)` / `d[k]` look up the first (unique) entry.
-/

variable {κ ν : Type}

def dictLookup [DecidableEq κ] (d : List (κ × ν)) (k : κ) : Option ν :=
  match d with
  | [] => none
  | (k', v) :: rest => if k' = k then some v else dictLookup rest k

def dictInsert [DecidableEq κ] (d : List (κ × ν)) (k : κ) (v : ν) : List (κ × ν) :=
  match d with
  | [] => [(k, v)]
  | (k', v') :: rest => if k' = k then (k, v) :: rest else (k', v') :: dictInsert rest k v

def dictDelete [DecidableEq κ] (d : List (κ × ν)) (k : κ) : List (κ × ν) :=
  d.filter (fun p => p.1 ≠ k)

def dictKeys (d : List (κ × ν)) : List κ := d.map Prod.fst

def dictMem [DecidableEq κ] (d : List (κ × ν)) (k : κ) : Prop := k ∈ dictKeys d

instance [DecidableEq κ] (d : List (κ × ν)) (k : κ) : Decidable (dictMem d k) := by
  unfold dictMem; infer_instance

/-! ## Activation library (src/pyneat/activations.py)

Each Python activation function becomes a tag (functions are compared by
identity in `Node.dist` and `random.choice(ACTIVATIONS)`) together with a
real-valued semantics `actEval`.
-/

inductive ActKind where
  | sigmoid
  | tanh
  | relu
  | absolute
  | sin
  | cos
  | step
  | linear
  deriving DecidableEq, Repr

/-- `np.clip(z, lo, hi)` for scalars. -/
noncomputable def npClip (z lo hi : ℝ) : ℝ := max lo (min hi z)

/-- `sigmoid(z)`: clip `2.5 * z` into `[-60, 60]`, then the logistic map. -/
noncomputable def sigmoidEval (z : ℝ) : ℝ :=
  1 / (1 + Real.exp (-(npClip (2.5 * z) (-60) 60)))

/-- `tanh(z)`: clip `2.5 * z` into `[-60, 60]`, then `np.tanh`. -/
noncomputable def tanhEval (z : ℝ) : ℝ := Real.tanh (npClip (2.5 * z) (-60) 60)

/-- `relu(z) = np.maximum(z, 0)`. -/
noncomputable def reluEval (z : ℝ) : ℝ := max z 0

/-- `step(x, thresold=0, step_val=1.)`. -/
noncomputable def stepEval (x : ℝ) : ℝ := if 0 < x then 1 else 0

/-- `sin(x) = np.sin(x)`. -/
noncomputable def sinEval (x : ℝ) : ℝ := Real.sin x

/-- `cos(x) = np.sin(x)` — this is what the source actually computes. -/
noncomputable def cosEval (x : ℝ) : ℝ := Real.sin x

/-- `linear(x, a=2.0) = x * a`. -/
noncomputable def linearEval (x : ℝ) : ℝ := x * 2

/-- `absolute = lambda x: np.abs(x)`. -/
noncomputable def absoluteEval (x : ℝ) : ℝ := |x|

noncomputable def actEval : ActKind → ℝ → ℝ
  | .sigmoid => sigmoidEval
  | .tanh => tanhEval
  | .relu => reluEval
  | .absolute => absoluteEval
  | .sin => sinEval
  | .cos => cosEval
  | .step => stepEval
  | .linear => linearEval

/-- `ACTIVATIONS = [sigmoid, tanh, relu, absolute, sin, cos, step, linear]`. -/
def ACTIVATIONS : List ActKind :=
  [.sigmoid, .tanh, .relu, .absolute, .sin, .cos, .step, .linear]

/-! ## Aggregation functions

The only aggregation in the source is `np.sum`; `Node.dist` compares
aggregations by identity, so a tag type with a sum semantics suffices. -/

inductive AggKind where
  | npSum
  deriving DecidableEq, Repr

noncomputable def aggEval : AggKind → List ℝ → ℝ
  | .npSum => fun xs => xs.sum

/-! ## Node (src/pyneat/node.py) -/

structure Node where
  key : Int
  bias : ℚ
  response : ℚ
  activation : ActKind
  aggregation : AggKind
  deriving DecidableEq, Repr

/-- `Node.__init__`: fresh node with a sampled bias (the sample is a
parameter), `response = 1.0`, `activation = sigmoid`, `aggregation = np.sum`. -/
def mkNode (key : Int) (bias : ℚ) : Node :=
  { key := key, bias := bias, response := 1, activation := .sigmoid, aggregation := .npSum }

/-- `Node.dist`. -/
def Node.dist (n : Node) (other : Node) : ℚ :=
  NODE_DIST_COEFF *
    (|n.bias - other.bias|
      + (if n.activation ≠ other.activation then 1 else 0)
      + (if n.aggregation ≠ other.aggregation then 1 else 0))

/-! ## Edge (src/pyneat/edge.py) -/

structure Edge where
  weight : ℚ
  uv : Int × Int
  active : Bool
  deriving DecidableEq, Repr

/-- `Edge.__init__`: the weight is either the one passed or a sample from
`np.random.normal` (in both cases a parameter here); `active = True`. -/
def mkEdge (u v : Int) (weight : ℚ) : Edge :=
  { weight := weight, uv := (u, v), active := true }

/-- `Edge.dist`. -/
def Edge.dist (e : Edge) (other : Edge) : ℚ :=
  (|e.weight - other.weight| + (if e.active ≠ other.active then 1 else 0)) * EDGE_DIST_COEFF

/-! ## Genome data (src/pyneat/genome.py) -/

structure Genome where
  key : Int
  nodes : List (Int × Node)
  edges : List ((Int × Int) × Edge)
  input_keys : List Int
  output_keys : List Int
  deriving DecidableEq, Repr

/-- `Genome.__init__`.  `input_keys = [-1, ..., -input_size]`,
`output_keys = [0, ..., output_size-1]`; one node per output key and a full
input→output edge set.  The loops insert pairwise-distinct fresh keys into
empty dicts, i.e. they append in iteration order. -/
def initGenome (key : Int) (input_size output_size : Nat)
    (nodeBias : Int → ℚ) (edgeWeight : Int × Int → ℚ) : Genome :=
  let inKeys : List Int :=
    (List.range input_size).map (fun i : Nat => -(1 : Int) * ((i : Int) + 1))
  let outKeys : List Int := (List.range output_size).map (fun i : Nat => (i : Int))
  { key := key
    nodes := outKeys.map (fun k => (k, mkNode k (nodeBias k)))
    edges := inKeys.flatMap (fun u => outKeys.map (fun v => ((u, v), mkEdge u v (edgeWeight (u, v)))))
    input_keys := inKeys
    output_keys := outKeys }

/-- `Genome._nodes_dist`. -/
def Genome.nodesDist (g : Genome) (other : Genome) : ℚ :=
  if g.nodes ≠ [] ∨ other.nodes ≠ [] then
    let disjointOther := ((dictKeys other.nodes).filter (fun k2 => decide (¬ dictMem g.nodes k2))).length
    let disjointSelf := (g.nodes.filter (fun p => decide (dictLookup other.nodes p.1 = none))).length
    let matched := (g.nodes.filterMap
      (fun p => (dictLookup other.nodes p.1).map (fun n2 => Node.dist p.2 n2))).sum
    let maxNodes : ℚ := max g.nodes.length other.nodes.length
    (matched + NODE_DISJOINT_COEFF * ((disjointOther : ℚ) + (disjointSelf : ℚ))) / maxNodes
  else 0

/-- `Genome._edges_dist`. -/
def Genome.edgesDist (g : Genome) (other : Genome) : ℚ :=
  if g.edges ≠ [] ∨ other.edges ≠ [] then
    let disjointOther := ((dictKeys other.edges).filter (fun k2 => decide (¬ dictMem g.edges k2))).length
    let disjointSelf := (g.edges.filter (fun p => decide (dictLookup other.edges p.1 = none))).length
    let matched := (g.edges.filterMap
      (fun p => (dictLookup other.edges p.1).map (fun e2 => Edge.dist p.2 e2))).sum
    let maxEdges : ℚ := max g.edges.length other.edges.length
    (matched + EDGE_DISJOINT_COEFF * ((disjointOther : ℚ) + (disjointSelf : ℚ))) / maxEdges
  else 0

/-- `Genome.dist`. -/
def Genome.dist (g : Genome) (other : Genome) : ℚ :=
  g.nodesDist other + g.edgesDist other

/-! ## Cycle check (src/pyneat/utils.py, `creates_cycle`)

The BFS builds the forward adjacency of **all** current edges and searches
for `u` starting from `v`.  The Python loop terminates because popping an
unseen node shrinks the unseen universe, while popping a seen node strictly
shrinks the number of queued already-seen entries without queueing new ones
(only unseen children are appended). -/

/-- Children of `c` in the adjacency map built from `E`, in edge order. -/
def adjChildren (E : List (Int × Int)) (c : Int) : List Int :=
  (E.filter (fun p => decide (p.1 = c))).map Prod.snd

/-- All node keys occurring in `E`. -/
def edgeEndpoints (E : List (Int × Int)) : Finset Int :=
  (E.map Prod.fst ++ E.map Prod.snd).toFinset

/-- The `while len(queue) > 0` loop of `creates_cycle`.  (In the source,
`seen.add(curr)` precedes the `curr == u` test; since the test does not read
`seen` and a hit returns immediately, folding the insertion into the
recursive call is observationally identical.) -/
def bfsLoop (E : List (Int × Int)) (u : Int) (seen : Finset Int) (queue : List Int) : Bool :=
  match queue with
  | [] => false
  | curr :: rest =>
    if curr = u then true
    else bfsLoop E u (insert curr seen)
      (rest ++ (adjChildren E curr).filter (fun c => decide (c ∉ insert curr seen)))
termination_by (((edgeEndpoints E ∪ queue.toFinset) \ seen).card,
  (queue.filter (fun x => decide (x ∈ seen))).length)
decreasing_by
  have hmemAdj : ∀ x, x ∈ adjChildren E curr → (curr, x) ∈ E := by
    intro x hx
    simp only [adjChildren, List.mem_map, List.mem_filter, decide_eq_true_eq] at hx
    obtain ⟨⟨a, b⟩, ⟨hmem, rfl⟩, rfl⟩ := hx
    exact hmem
  have hsub : ∀ (p : Int → Bool) (seen' : Finset Int), seen ⊆ seen' →
      (edgeEndpoints E ∪ (rest ++ (adjChildren E curr).filter p).toFinset) \ seen'
        ⊆ (edgeEndpoints E ∪ (curr :: rest).toFinset) \ seen := by
    intro p seen' hseen x hx
    rw [Finset.mem_sdiff] at hx ⊢
    obtain ⟨h1, h2⟩ := hx
    refine ⟨?_, fun hmem => h2 (hseen hmem)⟩
    rw [Finset.mem_union] at h1 ⊢
    rcases h1 with h | h
    · exact Or.inl h
    · rw [List.mem_toFinset, List.mem_append] at h
      rcases h with h | h
      · exact Or.inr (by rw [List.mem_toFinset]; exact List.mem_cons_of_mem _ h)
      · have hm := hmemAdj x (List.mem_filter.mp h).1
        refine Or.inl ?_
        simp only [edgeEndpoints, List.mem_toFinset, List.mem_append, List.mem_map]
        exact Or.inr ⟨(curr, x), hm, rfl⟩
  by_cases hcurr : curr ∈ seen
  · rw [Finset.insert_eq_self.mpr hcurr]
    have hle := Finset.card_le_card (hsub (fun c => decide (c ∉ seen)) seen Finset.Subset.rfl)
    rcases Nat.eq_or_lt_of_le hle with heq | hlt
    · rw [heq]
      apply Prod.Lex.right
      have hnil : ((adjChildren E curr).filter (fun c => decide (c ∉ seen))).filter
          (fun x => decide (x ∈ seen)) = [] := by
        apply List.filter_eq_nil_iff.mpr
        intro a ha
        have hnot := (List.mem_filter.mp ha).2
        simp only [decide_eq_true_eq] at hnot
        simp [hnot]
      calc ((rest ++ (adjChildren E curr).filter (fun c => decide (c ∉ seen))).filter
              (fun x => decide (x ∈ seen))).length
          = (rest.filter (fun x => decide (x ∈ seen))).length := by
            rw [List.filter_append, hnil, List.append_nil]
        _ < ((curr :: rest).filter (fun x => decide (x ∈ seen))).length := by
            rw [List.filter_cons]
            simp [hcurr]
    · exact Prod.Lex.left _ _ hlt
  · apply Prod.Lex.left
    apply Finset.card_lt_card
    rw [Finset.ssubset_iff_of_subset
      (hsub (fun c => decide (c ∉ insert curr seen)) (insert curr seen) (Finset.subset_insert _ _))]
    refine ⟨curr, ?_, ?_⟩
    · rw [Finset.mem_sdiff]
      exact ⟨Finset.mem_union_right _ (by simp), hcurr⟩
    · rw [Finset.mem_sdiff]
      intro h
      exact h.2 (Finset.mem_insert_self _ _)

/-- `creates_cycle(edges, u, v)`. -/
def creates_cycle (E : List (Int × Int)) (u v : Int) : Bool :=
  if u = v then true
  else if E.all (fun p => decide (p.1 ≠ v)) then false
  else bfsLoop E u ∅ [v]

/-- The edge relation of a key list: `a → b` when `(a, b)` is an edge key. -/
def edgeRel (E : List (Int × Int)) (a b : Int) : Prop := (a, b) ∈ E

instance (E : List (Int × Int)) (a b : Int) : Decidable (edgeRel E a b) := by
  unfold edgeRel; infer_instance

/-! ## Crossover (src/pyneat/utils.py `crossover`, src/pyneat/genome.py)

`crossover(obj1, obj2, obj_new, attrs)` sets each attribute of `obj_new`
from `obj1` or `obj2` with a fair coin; a coin value `true` selects the
first parent.  The attribute lists are fixed at the two call sites, so the
generic loop is specialised per type. -/

/-- `crossover(edge_p1, edge_p2, Edge(key[0], key[1]), attrs=['weight', 'active'])`. -/
def crossoverEdge (e1 e2 enew : Edge) (cweight cactive : Bool) : Edge :=
  { enew with
    weight := if cweight then e1.weight else e2.weight
    active := if cactive then e1.active else e2.active }

/-- `crossover(node_p1, node_p2, Node(next(Genome.node_count)),
attrs=['bias', 'response', 'activation', 'aggregation'])`. -/
def crossoverNode (n1 n2 nnew : Node) (cbias cresp cact cagg : Bool) : Node :=
  { nnew with
    bias := if cbias then n1.bias else n2.bias
    response := if cresp then n1.response else n2.response
    activation := if cact then n1.activation else n2.activation
    aggregation := if cagg then n1.aggregation else n2.aggregation }

/-- `Genome.crossover_edges(self, other, child)`.  `coins k` are the two
attribute coins for a matched key `k`; `w0 k` is the sampled initial weight
of the scratch `Edge(key[0], key[1])` (overwritten by the crossover since
both attributes are in the list). -/
def Genome.crossover_edges (g other child : Genome)
    (coins : Int × Int → Bool × Bool) (w0 : Int × Int → ℚ) : Genome :=
  { child with
    edges := g.edges.foldl
      (fun ce p =>
        match dictLookup other.edges p.1 with
        | none => dictInsert ce p.1 p.2
        | some e2 =>
          dictInsert ce p.1
            (crossoverEdge p.2 e2 (mkEdge p.1.1 p.1.2 (w0 p.1)) (coins p.1).1 (coins p.1).2))
      child.edges }

/-- `Genome.crossover_nodes(self, other, child)`.  For a key present in both
parents a scratch `Node(next(Genome.node_count))` is created: the global
node counter `c0` supplies its key (and advances), `b0` its sampled bias.
The result is the updated child together with the advanced counter. -/
def Genome.crossover_nodes (g other child : Genome)
    (coins : Int → Bool × Bool × Bool × Bool) (b0 : Int → ℚ) (c0 : Int) : Genome × Int :=
  let folded := g.nodes.foldl
    (fun (acc : List (Int × Node) × Int) p =>
      match dictLookup other.nodes p.1 with
      | none => (dictInsert acc.1 p.1 p.2, acc.2)
      | some n2 =>
        let cs := coins p.1
        (dictInsert acc.1 p.1
          (crossoverNode p.2 n2 (mkNode acc.2 (b0 acc.2)) cs.1 cs.2.1 cs.2.2.1 cs.2.2.2),
         acc.2 + 1))
    (child.nodes, c0)
  ({ child with nodes := folded.1 }, folded.2)

/-! ## Mutation operators (src/pyneat/genome.py)

Each `_mutate_*_` fires with some probability; a non-firing call is the
identity, so only the firing branch is modelled.  Random draws are
parameters; the `Reach` relation below constrains them the way
`random.choice` does. -/

/-- `Genome._mutate_add_node_`, firing branch, splitting the edge stored at
key `k` (no-op if `k` is absent, which the choice hypothesis rules out).
The new node gets key `newId = next(Genome.node_count)` and bias `biasNew`. -/
def mutateAddNode (g : Genome) (k : Int × Int) (newId : Int) (biasNew : ℚ) : Genome :=
  match dictLookup g.edges k with
  | none => g
  | some e =>
    let edges1 := dictInsert g.edges k { e with active := false }
    let eUToNew := mkEdge e.uv.1 newId 1
    let eNewToV := mkEdge newId e.uv.2 e.weight
    { g with
      nodes := dictInsert g.nodes newId (mkNode newId biasNew)
      edges := dictInsert (dictInsert edges1 eUToNew.uv eUToNew) eNewToV.uv eNewToV }

/-- `Genome._mutate_del_node_`, firing branch, deleting `delKey` (drawn from
the non-output node keys): every edge whose key mentions `delKey` goes too. -/
def mutateDelNode (g : Genome) (delKey : Int) : Genome :=
  { g with
    edges := g.edges.filter (fun p => decide (p.1.1 ≠ delKey ∧ p.1.2 ≠ delKey))
    nodes := dictDelete g.nodes delKey }

/-- `Genome._mutate_add_edge_`, firing branch, with drawn `out_node` and
`in_node` and sampled weight `w`. -/
def mutateAddEdge (g : Genome) (inNode outNode : Int) (w : ℚ) : Genome :=
  let key := (inNode, outNode)
  let stop :=
    decide (dictMem g.edges key)
    || (decide (inNode ∈ g.output_keys) && decide (outNode ∈ g.output_keys))
    || creates_cycle (dictKeys g.edges) inNode outNode
  if stop then g
  else { g with edges := dictInsert g.edges key (mkEdge inNode outNode w) }

/-- `Genome._mutate_del_edge_`, firing branch, deleting the drawn key `k`. -/
def mutateDelEdge (g : Genome) (k : Int × Int) : Genome :=
  { g with edges := dictDelete g.edges k }

/-- `Genome._mutate_node_properties`: every node runs `Node.mutate_`, which
may replace `bias` (perturb-and-clip, or re-initialise, or keep) and
`activation` (fresh uniform draw, or keep); `key`, `response`, `aggregation`
are untouched.  The outcome per node is an arbitrary new bias/activation. -/
def mutateNodeProps (g : Genome) (newBias : Int → Node → ℚ) (newAct : Int → Node → ActKind) :
    Genome :=
  { g with
    nodes := g.nodes.map (fun p =>
      (p.1, { p.2 with bias := newBias p.1 p.2, activation := newAct p.1 p.2 })) }

/-- `Genome._mutate_edge_properties`: every edge runs `Edge.mutate_`, which
may replace `weight` and `active`; `uv` is untouched. -/
def mutateEdgeProps (g : Genome) (newW : Int × Int → Edge → ℚ)
    (newActive : Int × Int → Edge → Bool) : Genome :=
  { g with
    edges := g.edges.map (fun p =>
      (p.1, { p.2 with weight := newW p.1 p.2, active := newActive p.1 p.2 })) }

/-- `Population.new_child` up to (and excluding) the final `child.mutate_()`:
fresh genome with parent 1's arity, parents swapped when `f1 < f2`, then
edge crossover and node crossover.  Returns the child and the advanced
global node counter. -/
def newChildCrossover (p1 p2 : Genome) (f1 f2 : ℚ) (gid : Int)
    (nodeBias : Int → ℚ) (edgeWeight : Int × Int → ℚ)
    (ecoins : Int × Int → Bool × Bool) (w0 : Int × Int → ℚ)
    (ncoins : Int → Bool × Bool × Bool × Bool) (b0 : Int → ℚ) (c0 : Int) : Genome × Int :=
  let child0 := initGenome gid p1.input_keys.length p1.output_keys.length nodeBias edgeWeight
  let pr := if f1 < f2 then (p2, p1) else (p1, p2)
  let child1 := Genome.crossover_edges pr.1 pr.2 child0 ecoins w0
  Genome.crossover_nodes pr.1 pr.2 child1 ncoins b0 c0

/-! ## Reachable genomes

`Reach c g` holds when the public operations can produce genome `g` at a
point where the global node counter `Genome.node_count` is at `c`.  The
counter hypotheses encode exactly what `itertools.count(MIN_NODE_COUNT)`
guarantees: every id it hands out is `≥ MIN_NODE_COUNT`, strictly larger
than every id handed out before, and it only advances. -/

/-- Every key mentioned in `g` (node keys and edge endpoints) is `< c`. -/
def keysBelow (g : Genome) (c : Int) : Prop :=
  (∀ k ∈ dictKeys g.nodes, k < c) ∧ ∀ p ∈ dictKeys g.edges, p.1 < c ∧ p.2 < c

inductive Reach : Int → Genome → Prop where
  | init (key : Int) (input_size output_size : Nat) (c : Int)
      (nodeBias : Int → ℚ) (edgeWeight : Int × Int → ℚ)
      (hout : (output_size : Int) ≤ MIN_NODE_COUNT) (hc : MIN_NODE_COUNT ≤ c) :
      Reach c (initGenome key input_size output_size nodeBias edgeWeight)
  | advance {c g} (c' : Int) (h : Reach c g) (hcc : c ≤ c') : Reach c' g
  | addNode {c g} (k : Int × Int) (biasNew : ℚ) (h : Reach c g)
      (hk : dictMem g.edges k) :
      Reach (c + 1) (mutateAddNode g k c biasNew)
  | delNode {c g} (delKey : Int) (h : Reach c g)
      (hmem : dictMem g.nodes delKey) (hout : delKey ∉ g.output_keys) :
      Reach c (mutateDelNode g delKey)
  | addEdge {c g} (inNode outNode : Int) (w : ℚ) (h : Reach c g)
      (hout : outNode ∈ dictKeys g.nodes)
      (hin : inNode ∈ dictKeys g.nodes ++ g.input_keys) :
      Reach c (mutateAddEdge g inNode outNode w)
  | delEdge {c g} (k : Int × Int) (h : Reach c g) (hk : dictMem g.edges k) :
      Reach c (mutateDelEdge g k)
  | nodeProps {c g} (newBias : Int → Node → ℚ) (newAct : Int → Node → ActKind)
      (h : Reach c g) : Reach c (mutateNodeProps g newBias newAct)
  | edgeProps {c g} (newW : Int × Int → Edge → ℚ) (newActive : Int × Int → Edge → Bool)
      (h : Reach c g) : Reach c (mutateEdgeProps g newW newActive)
  | crossover {c p1 p2} (f1 f2 : ℚ) (gid : Int)
      (nodeBias : Int → ℚ) (edgeWeight : Int × Int → ℚ)
      (ecoins : Int × Int → Bool × Bool) (w0 : Int × Int → ℚ)
      (ncoins : Int → Bool × Bool × Bool × Bool) (b0 : Int → ℚ)
      (h1 : Reach c p1) (h2 : Reach c p2)
      (hin : p1.input_keys = p2.input_keys) (hout : p1.output_keys = p2.output_keys) :
      Reach (newChildCrossover p1 p2 f1 f2 gid nodeBias edgeWeight ecoins w0 ncoins b0 c).2
        (newChildCrossover p1 p2 f1 f2 gid nodeBias edgeWeight ecoins w0 ncoins b0 c).1

/-! ## Phenotype compiler and forward pass (src/pyneat/network.py)

`edges` always denotes the list of the genome's **active** edge keys.
Layers are Python sets of ints; the embedding represents a layer as the
duplicate-free list of its elements in first-occurrence order (Python set
iteration order is unspecified, the spec leaves intra-layer order
unspecified, and the nodes of one layer are independent), and the `seen`
accumulator as a `Finset`.  The two `while True` loops terminate in the
source because every iteration moves at least one edge endpoint into
`seen`; they are embedded with the explicit iteration bound
`(edgeEndpoints edges).card + 1`, which is therefore never exhausted.
Dict lookups that would raise become `Option`. -/

structure EvalNode where
  node_id : Int
  activation : ActKind
  aggregation : AggKind
  bias : ℚ
  incoming : List (Int × ℚ)
  deriving DecidableEq, Repr

structure NeuralNetwork where
  input_keys : List Int
  output_keys : List Int
  eval_nodes : List EvalNode
  deriving DecidableEq, Repr

/-- The `while True` loop of `NeuralNetwork._required_nodes`. -/
def requiredLoop (edges : List (Int × Int)) (input_keys : List Int) :
    Nat → Finset Int → Finset Int → Finset Int
  | 0, required, _ => required
  | fuel + 1, required, seen =>
    let layer : List Int :=
      ((edges.filter (fun p => decide (p.2 ∈ seen ∧ p.1 ∉ seen))).map Prod.fst).dedup
    if layer = [] then required
    else
      let layer_nodes := layer.filter (fun u => decide (u ∉ input_keys))
      if layer_nodes = [] then required
      else requiredLoop edges input_keys fuel (required ∪ layer_nodes.toFinset)
        (seen ∪ layer.toFinset)

/-- `NeuralNetwork._required_nodes(edges, input_keys, output_keys)`. -/
def requiredNodes (edges : List (Int × Int)) (input_keys output_keys : List Int) : Finset Int :=
  requiredLoop edges input_keys ((edgeEndpoints edges).card + 1)
    output_keys.toFinset output_keys.toFinset

/-- One layer of `_make_layers`: the candidates reachable in one step from
`seen`, restricted to required nodes all of whose in-edges start in `seen`. -/
def layerOf (edges : List (Int × Int)) (required_nodes : Finset Int) (seen : Finset Int) :
    List Int :=
  let candidates : List Int :=
    ((edges.filter (fun p => decide (p.1 ∈ seen ∧ p.2 ∉ seen))).map Prod.snd).dedup
  candidates.filter (fun w => decide (w ∈ required_nodes ∧ ∀ p ∈ edges, p.2 = w → p.1 ∈ seen))

/-- The `while True` loop of `NeuralNetwork._make_layers`; appending a layer
and continuing is consing it onto the rest of the run. -/
def makeLayersLoop (edges : List (Int × Int)) (required_nodes : Finset Int) :
    Nat → Finset Int → List (List Int)
  | 0, _ => []
  | fuel + 1, seen =>
    let layer := layerOf edges required_nodes seen
    if layer = [] then []
    else layer :: makeLayersLoop edges required_nodes fuel (seen ∪ layer.toFinset)

/-- `NeuralNetwork._make_layers(required_nodes, edges, input_keys)`. -/
def makeLayers (required_nodes : Finset Int) (edges : List (Int × Int))
    (input_keys : List Int) : List (List Int) :=
  makeLayersLoop edges required_nodes ((edgeEndpoints edges).card + 1) input_keys.toFinset

/-- The incoming-connection list of `node`:
`[(u, genome.edges[u, v].weight) for u, v in edges if v == node]`
(the dict access may raise, hence `Option`). -/
def incomingOf (edges : List (Int × Int)) (g : Genome) (node : Int) :
    Option (List (Int × ℚ)) :=
  match edges with
  | [] => some []
  | p :: rest =>
    if p.2 = node then
      match dictLookup g.edges p, incomingOf rest g node with
      | some e, some tl => some ((p.1, e.weight) :: tl)
      | _, _ => none
    else incomingOf rest g node

/-- One layer's worth of `EvalNode`s, in the layer's enumeration order. -/
def evalNodesOfLayer (edges : List (Int × Int)) (g : Genome) (ns : List Int) :
    Option (List EvalNode) :=
  match ns with
  | [] => some []
  | n :: rest =>
    match dictLookup g.nodes n, incomingOf edges g n, evalNodesOfLayer edges g rest with
    | some nd, some inc, some tl =>
      some ({ node_id := n, activation := nd.activation, aggregation := nd.aggregation,
              bias := nd.bias, incoming := inc } :: tl)
    | _, _, _ => none

/-- `NeuralNetwork._make_eval_nodes(layers, edges, genome)`. -/
def makeEvalNodes (layers : List (List Int)) (edges : List (Int × Int)) (g : Genome) :
    Option (List EvalNode) :=
  match layers with
  | [] => some []
  | l :: rest =>
    match evalNodesOfLayer edges g l, makeEvalNodes rest edges g with
    | some a, some b => some (a ++ b)
    | _, _ => none

/-- The active edge keys of a genome: `[edge.uv for edge in genome.edges.values() if edge.active]`. -/
def make_network_activeEdges (g : Genome) : List (Int × Int) :=
  (g.edges.filter (fun p => p.2.active)).map (fun p => p.2.uv)

/-- `NeuralNetwork.make_network(genome)`. -/
def make_network (g : Genome) : Option NeuralNetwork :=
  let edges := make_network_activeEdges g
  let required := requiredNodes edges g.input_keys g.output_keys
  let layers := makeLayers required edges g.input_keys
  (makeEvalNodes layers edges g).map
    (fun ev => { input_keys := g.input_keys, output_keys := g.output_keys, eval_nodes := ev })

/-- `values[i] * w` for each incoming connection (`Option` for the lookup). -/
noncomputable def gatherInputs (values : List (Int × ℝ)) : List (Int × ℚ) → Option (List ℝ)
  | [] => some []
  | (i, w) :: rest =>
    match dictLookup values i, gatherInputs values rest with
    | some vi, some tl => some ((vi * (w : ℝ)) :: tl)
    | _, _ => none

/-- The evaluation loop of `NeuralNetwork.forward`. -/
noncomputable def forwardEval : List EvalNode → List (Int × ℝ) → Option (List (Int × ℝ))
  | [], values => some values
  | en :: rest, values =>
    match gatherInputs values en.incoming with
    | none => none
    | some ins =>
      forwardEval rest
        (dictInsert values en.node_id (actEval en.activation ((en.bias : ℝ) + aggEval en.aggregation ins)))

/-- `[values[n] for n in self.output_keys]`. -/
noncomputable def outputsOf (values : List (Int × ℝ)) : List Int → Option (List ℝ)
  | [] => some []
  | k :: rest =>
    match dictLookup values k, outputsOf values rest with
    | some v, some tl => some (v :: tl)
    | _, _ => none

/-- `NeuralNetwork.forward(x)`.  The initial `values` dict maps every input
and output key to `0.0`; `zip(self.input_keys, x)` then writes the inputs,
silently truncating to the shorter of the two lists. -/
noncomputable def NeuralNetwork.forward (net : NeuralNetwork) (x : List ℝ) : Option (List ℝ) :=
  let values0 := (net.input_keys ++ net.output_keys).foldl (fun d k => dictInsert d k (0 : ℝ)) []
  let values1 := (net.input_keys.zip x).foldl (fun d p => dictInsert d p.1 p.2) values0
  (forwardEval net.eval_nodes values1).bind (fun values => outputsOf values net.output_keys)

/-! ## Partitions and speciation (src/pyneat/partitions.py, population.py)

`Partition` owns its representative genome by value.  `min(..., key=...)`
scans left to right and keeps the first strictly-smallest element;
`Partitions.partition_count` is a global counter threaded explicitly.
Python's `round` is round-half-to-even (`pyRound`). -/

structure Partition where
  key : Int
  members : List Int
  representative : Genome
  deriving DecidableEq, Repr

/-- All member gids of a partition list, in order; the observation the
partition invariants are stated on. -/
def allMembers (parts : List (Int × Partition)) : List Int :=
  parts.flatMap (fun q => q.2.members)

/-- Python `min(l, key=lambda x: x[0])`: first element with the smallest
first component (`none` on an empty sequence, where Python raises). -/
def pyMinBy {α : Type} (l : List (ℚ × α)) : Option (ℚ × α) :=
  match l with
  | [] => none
  | c :: rest => some (rest.foldl (fun best x => if x.1 < best.1 then x else best) c)

/-- The candidate list of `Partition.find_representative`:
`(dist(representative, population[gid]), population[gid])` per gid, in the
given enumeration order of the unpartitioned set. -/
def candidatesOf (rep : Genome) (pop : List (Int × Genome)) : List Int → Option (List (ℚ × Genome))
  | [] => some []
  | gid :: rest =>
    match dictLookup pop gid, candidatesOf rep pop rest with
    | some g, some tl => some ((Genome.dist rep g, g) :: tl)
    | _, _ => none

/-- `Partition.find_representative(gids, population)`. -/
def findRepresentative (p : Partition) (gids : List Int) (pop : List (Int × Genome)) :
    Option Genome :=
  (candidatesOf p.representative pop gids).bind (fun cands => (pyMinBy cands).map Prod.snd)

/-- `Partitions.closest_representative(genome)`: candidate `(d, pid)` pairs
with `d < COMPATIBILITY_THRESHOLD`, then the first-minimal pid (or none). -/
def closestRepresentative (parts : List (Int × Partition)) (g : Genome) : Option Int :=
  (pyMinBy ((parts.map (fun q => (Genome.dist q.2.representative g, q.1))).filter
      (fun c => decide (c.1 < COMPATIBILITY_THRESHOLD)))).map Prod.snd

/-- First loop of `Population.partition`: carry each prior species id, give
it the unpartitioned genome closest to its old representative as new
representative and sole member, and drop that genome from the
unpartitioned set (`set.remove`; the element is present whenever the
unpartitioned set is nonempty, cf. `findRepresentative`). -/
def partitionPhase1 (pop : List (Int × Genome)) :
    List (Int × Partition) → List Int → List (Int × Partition) →
    Option (List (Int × Partition) × List Int)
  | [], unpart, acc => some (acc, unpart)
  | (pid, p) :: rest, unpart, acc =>
    match findRepresentative p unpart pop with
    | none => none
    | some newRep =>
      partitionPhase1 pop rest (unpart.erase newRep.key)
        (dictInsert acc pid { key := pid, members := [newRep.key], representative := newRep })

/-- Second loop of `Population.partition`: pop an unpartitioned genome, put
it into the closest compatible new species, else open a fresh species
(fresh pid from the threaded `partition_count`). -/
def partitionPhase2 (pop : List (Int × Genome)) :
    List Int → List (Int × Partition) → Int → Option (List (Int × Partition))
  | [], acc, _ => some acc
  | gid :: rest, acc, cnt =>
    match dictLookup pop gid with
    | none => none
    | some g =>
      match closestRepresentative acc g with
      | none =>
        partitionPhase2 pop rest
          (dictInsert acc cnt { key := cnt, members := [gid], representative := g }) (cnt + 1)
      | some pid =>
        match dictLookup acc pid with
        | none => none
        | some part =>
          partitionPhase2 pop rest
            (dictInsert acc pid { part with members := part.members ++ [gid] }) cnt

/-- `Population.partition(initial_partitions)`.  `unpart0` is the iteration
order of `set(self.gid_to_genome.keys())` and `cnt0` the current state of
the global `Partitions.partition_count`. -/
def populationPartition (pop : List (Int × Genome)) (initial_partitions : List (Int × Partition))
    (unpart0 : List Int) (cnt0 : Int) : Option (List (Int × Partition)) :=
  (partitionPhase1 pop initial_partitions unpart0 []).bind
    (fun r => partitionPhase2 pop r.2 r.1 cnt0)

/-- Python `round` on a real: round half to even (then `int(...)`, which is
the identity on the integral result). -/
def pyRound (q : ℚ) : Int :=
  if q - ⌊q⌋ < 1/2 then ⌊q⌋
  else if 1/2 < q - ⌊q⌋ then ⌊q⌋ + 1
  else if Even ⌊q⌋ then ⌊q⌋ else ⌊q⌋ + 1

/-- The per-species loop of `Partitions.next_partition_sizes` (before the
final renormalisation); `none` models the `KeyError` on a pid missing from
`previous_sizes`. -/
def rawSizesLoop (prev : List (Int × Int)) (afSum : ℚ) (pop_size : Nat) :
    List (Int × ℚ) → Option (List (Int × Int))
  | [] => some []
  | (pid, af) :: rest =>
    match dictLookup prev pid, rawSizesLoop prev afSum pop_size rest with
    | some prevSize, some tl =>
      let s : ℚ := if 0 < afSum then max (MIN_SPECIES_SIZE : ℚ) (af / afSum * pop_size)
        else (MIN_SPECIES_SIZE : ℚ)
      let d : ℚ := (s - prevSize) * (1 / 2)
      let c : Int := pyRound d
      let size : Int :=
        if 0 < |c| then prevSize + c
        else if 0 < d then prevSize + 1
        else if d < 0 then prevSize - 1
        else prevSize
      some ((pid, size) :: tl)
    | _, _ => none

/-- `Partitions.next_partition_sizes(partition_adjusted_fitnesses, pop_size)`.
`none` on a missing pid or on `sum(sizes.values()) == 0`
(`ZeroDivisionError` in the source). -/
def nextPartitionSizes (parts : List (Int × Partition)) (paf : List (Int × ℚ))
    (pop_size : Nat) : Option (List (Int × Int)) :=
  let prev := parts.map (fun p => (p.1, (p.2.members.length : Int)))
  let afSum := (paf.map Prod.snd).sum
  (rawSizesLoop prev afSum pop_size paf).bind (fun sizes =>
    let total : Int := (sizes.map Prod.snd).sum
    if total = 0 then none
    else some (sizes.map (fun p =>
      (p.1, max MIN_SPECIES_SIZE (pyRound ((p.2 : ℚ) * ((pop_size : ℚ) / (total : ℚ))))))))

/-! ## Concrete objects for witnesses and counterexamples -/

/-- A fresh 1-input/1-output genome with zero biases and weights. -/
def gW : Genome := initGenome 1 1 1 (fun _ => 0) (fun _ => 0)

/-- A fresh 2-input/1-output genome. -/
def hW : Genome := initGenome 2 2 1 (fun _ => 1) (fun _ => 1 / 2)

/-- `gW` after a del-edge mutation removed its only edge `(-1, 0)`. -/
def pW : Genome := mutateDelEdge gW ((-1 : Int), (0 : Int))

/-- The pre-mutation crossover child of `pW` with itself. -/
def childPairW : Genome × Int :=
  newChildCrossover pW pW 0 0 5 (fun _ => 0) (fun _ => 0) (fun _ => (true, true)) (fun _ => 0)
    (fun _ => (true, true, true, true)) (fun _ => 0) 10

/-- Node crossover of `gW` with itself into a fresh child, with the global
node counter at `10`. -/
def crossNodesW : Genome × Int :=
  Genome.crossover_nodes gW gW (initGenome 7 1 1 (fun _ => 0) (fun _ => 0))
    (fun _ => (true, true, true, true)) (fun _ => 0) 10

/-- Sources of every evaluation record are already available (inputs,
outputs, or earlier records), the invariant `make_network` establishes and
`forward` consumes. -/
def evalOk (avail : Finset Int) : List EvalNode → Prop
  | [] => True
  | en :: rest => (∀ p ∈ en.incoming, p.1 ∈ avail) ∧ evalOk (insert en.node_id avail) rest

/-- The structural invariant of genomes (spec section 3 / claim C2),
strengthened with what the induction needs: key-sign facts, the literal
input/output key formulas, `edge.uv` consistency with the dict key, and
acyclicity of the **whole** edge-key graph (the active subgraph is then
acyclic a fortiori, stable under arbitrary `active`-flag flips). -/
structure GenomeInv (g : Genome) : Prop where
  nodesNonneg : ∀ k ∈ dictKeys g.nodes, 0 ≤ k
  inputsNeg : ∀ i ∈ g.input_keys, i < 0
  inFormula : g.input_keys
    = (List.range g.input_keys.length).map (fun i : Nat => -(1 : Int) * ((i : Int) + 1))
  outFormula : g.output_keys
    = (List.range g.output_keys.length).map (fun i : Nat => (i : Int))
  outNodes : ∀ k ∈ g.output_keys, k ∈ dictKeys g.nodes
  edgeEnds : ∀ p ∈ dictKeys g.edges,
    (p.1 ∈ g.input_keys ∨ p.1 ∈ dictKeys g.nodes) ∧ p.2 ∈ dictKeys g.nodes ∧ p.1 ≠ p.2
  uvConsistent : ∀ q ∈ g.edges, (q : (Int × Int) × Edge).2.uv = q.1
  acyclicKeys : ∀ a, ¬ Relation.TransGen (edgeRel (dictKeys g.edges)) a a

/-- The network compiled from `gW` (1 input, 1 output, single active edge). -/
def netW : NeuralNetwork :=
  { input_keys := [-1], output_keys := [0],
    eval_nodes := [{ node_id := 0, activation := .sigmoid, aggregation := .npSum, bias := 0,
                     incoming := [(-1, 0)] }] }

/-- The network compiled from `pW` (no edges at all): no eval nodes. -/
def netE : NeuralNetwork :=
  { input_keys := [-1], output_keys := [0], eval_nodes := [] }

/-- Three equal-fitness species of size 2 each (concrete C8 input). -/
def partsW3 : List (Int × Partition) :=
  [(1, { key := 1, members := [1, 2], representative := gW }),
   (2, { key := 2, members := [3, 4], representative := gW }),
   (3, { key := 3, members := [5, 6], representative := gW })]

/-- Equal adjusted fitnesses for `partsW3`. -/
def pafW3 : List (Int × ℚ) := [(1, 1 / 3), (2, 1 / 3), (3, 1 / 3)]

theorem mem_adjChildren {E : List (Int × Int)} {c x : Int} :
    x ∈ adjChildren E c ↔ (c, x) ∈ E := by
  simp only [adjChildren, List.mem_map, List.mem_filter, decide_eq_true_eq]
  constructor
  · rintro ⟨⟨a, b⟩, ⟨hmem, rfl⟩, rfl⟩
    exact hmem
  · intro h
    exact ⟨(c, x), ⟨h, rfl⟩, rfl⟩

theorem mem_edgeEndpoints {E : List (Int × Int)} {x : Int} :
    x ∈ edgeEndpoints E ↔ (∃ p ∈ E, p.1 = x) ∨ ∃ p ∈ E, p.2 = x := by
  simp [edgeEndpoints]

/-- One BFS step never grows the unseen part of the node universe. -/
theorem bfs_diff_subset (E : List (Int × Int)) (curr : Int) (rest extra : List Int)
    (seen seen' : Finset Int)
    (hextra : ∀ x ∈ extra, x ∈ edgeEndpoints E) (hseen : seen ⊆ seen') :
    (edgeEndpoints E ∪ (rest ++ extra).toFinset) \ seen'
      ⊆ (edgeEndpoints E ∪ (curr :: rest).toFinset) \ seen := by
  intro x hx
  rw [Finset.mem_sdiff] at hx ⊢
  obtain ⟨h1, h2⟩ := hx
  refine ⟨?_, fun hmem => h2 (hseen hmem)⟩
  rw [Finset.mem_union] at h1 ⊢
  rcases h1 with h | h
  · exact Or.inl h
  · rw [List.mem_toFinset, List.mem_append] at h
    rcases h with h | h
    · exact Or.inr (by rw [List.mem_toFinset]; exact List.mem_cons_of_mem _ h)
    · exact Or.inl (hextra x h)

theorem bfsLoop_sound (E : List (Int × Int)) (u v : Int) :
    ∀ (seen : Finset Int) (queue : List Int),
      (∀ x ∈ queue, Relation.ReflTransGen (edgeRel E) v x) →
      bfsLoop E u seen queue = true →
      Relation.ReflTransGen (edgeRel E) v u := by
  intro seen queue
  induction seen, queue using bfsLoop.induct E u with
  | case1 seen =>
    intro _ hfalse
    simp [bfsLoop] at hfalse
  | case2 seen rest =>
    intro hq _
    exact hq u (List.mem_cons_self _ _)
  | case3 seen curr rest hu ih =>
    intro hq hrun
    rw [bfsLoop, if_neg hu] at hrun
    refine ih ?_ hrun
    intro x hx
    rcases List.mem_append.mp hx with hx | hx
    · exact hq x (List.mem_cons_of_mem _ hx)
    · have hadj := mem_adjChildren.mp (List.mem_filter.mp hx).1
      exact Relation.ReflTransGen.tail (hq curr (List.mem_cons_self _ _)) hadj

theorem bfsLoop_complete (E : List (Int × Int)) (u v : Int) :
    ∀ (seen : Finset Int) (queue : List Int),
      (∀ x y, x ∈ seen → (x, y) ∈ E → y ∈ seen ∨ y ∈ queue) →
      (v ∈ seen ∨ v ∈ queue) →
      u ∉ seen →
      Relation.ReflTransGen (edgeRel E) v u →
      bfsLoop E u seen queue = true := by
  intro seen queue
  induction seen, queue using bfsLoop.induct E u with
  | case1 seen =>
    intro hclosed hstart hu hpath
    exfalso
    have hseen : ∀ x, Relation.ReflTransGen (edgeRel E) v x → x ∈ seen := by
      intro x hx
      induction hx with
      | refl => exact hstart.resolve_right (by simp)
      | tail _ hstep ih =>
        rcases hclosed _ _ ih hstep with h | h
        · exact h
        · simp at h
    exact hu (hseen u hpath)
  | case2 seen rest =>
    intro _ _ _ _
    simp [bfsLoop]
  | case3 seen curr rest hcu ih =>
    intro hclosed hstart hu hpath
    rw [bfsLoop, if_neg hcu]
    refine ih ?_ ?_ ?_ hpath
    · intro x y hx hxy
      rcases Finset.mem_insert.mp hx with rfl | hx
      · by_cases hy : y ∈ insert x seen
        · exact Or.inl hy
        · right
          refine List.mem_append.mpr (Or.inr ?_)
          exact List.mem_filter.mpr ⟨mem_adjChildren.mpr hxy, by simpa using hy⟩
      · rcases hclosed x y hx hxy with h | h
        · exact Or.inl (Finset.mem_insert_of_mem h)
        · rcases List.mem_cons.mp h with rfl | h
          · exact Or.inl (Finset.mem_insert_self _ _)
          · exact Or.inr (List.mem_append.mpr (Or.inl h))
    · rcases hstart with h | h
      · exact Or.inl (Finset.mem_insert_of_mem h)
      · rcases List.mem_cons.mp h with rfl | h
        · exact Or.inl (Finset.mem_insert_self _ _)
        · exact Or.inr (List.mem_append.mpr (Or.inl h))
    · intro h
      rcases Finset.mem_insert.mp h with rfl | h
      · exact hcu rfl
      · exact hu h

/-- `creates_cycle` decides precisely "self-loop or path from `v` back to `u`". -/
theorem creates_cycle_iff (E : List (Int × Int)) (u v : Int) :
    creates_cycle E u v = true ↔ u = v ∨ Relation.ReflTransGen (edgeRel E) v u := by
  unfold creates_cycle
  by_cases huv : u = v
  · simp [huv]
  · rw [if_neg huv]
    by_cases hsrc : E.all (fun p => decide (p.1 ≠ v)) = true
    · rw [if_pos hsrc]
      simp only [Bool.false_eq_true, false_iff]
      rintro (rfl | hpath)
      · exact huv rfl
      · rcases Relation.ReflTransGen.cases_head hpath with h | ⟨w, hstep, _⟩
        · exact huv h.symm
        · have := List.all_eq_true.mp hsrc _ hstep
          simp at this
    · rw [if_neg hsrc]
      constructor
      · intro htrue
        exact Or.inr (bfsLoop_sound E u v ∅ [v]
          (by intro x hx; rcases List.mem_singleton.mp hx with rfl; exact Relation.ReflTransGen.refl)
          htrue)
      · rintro (rfl | hpath)
        · exact absurd rfl huv
        · exact bfsLoop_complete E u v ∅ [v] (by simp) (by simp) (by simp) hpath

/-! ## Dict lemmas -/

theorem dictLookup_eq_none_iff [DecidableEq κ] (d : List (κ × ν)) (k : κ) :
    dictLookup d k = none ↔ k ∉ dictKeys d := by
  induction d with
  | nil => simp [dictLookup, dictKeys]
  | cons p rest ih =>
    obtain ⟨k', v⟩ := p
    by_cases h : k' = k
    · subst h
      simp [dictLookup, dictKeys]
    · rw [dictLookup, if_neg h, ih]
      unfold dictKeys
      rw [List.map_cons]
      simp only [List.mem_cons, not_or]
      constructor
      · intro hnk
        exact ⟨fun heq => h heq.symm, hnk⟩
      · intro hnk
        exact hnk.2

theorem mem_of_dictLookup_eq_some [DecidableEq κ] {d : List (κ × ν)} {k : κ} {v : ν}
    (h : dictLookup d k = some v) : (k, v) ∈ d := by
  induction d with
  | nil => simp [dictLookup] at h
  | cons p rest ih =>
    obtain ⟨k', v'⟩ := p
    by_cases hk : k' = k
    · subst hk
      rw [dictLookup, if_pos rfl] at h
      cases h
      exact List.mem_cons_self _ _
    · rw [dictLookup, if_neg hk] at h
      exact List.mem_cons_of_mem _ (ih h)

theorem dictLookup_eq_some_of_mem_nodup [DecidableEq κ] {d : List (κ × ν)} {k : κ} {v : ν}
    (hnd : (dictKeys d).Nodup) (hmem : (k, v) ∈ d) : dictLookup d k = some v := by
  induction d with
  | nil => simp at hmem
  | cons p rest ih =>
    obtain ⟨k', v'⟩ := p
    rw [dictKeys, List.map_cons, List.nodup_cons] at hnd
    rcases List.mem_cons.mp hmem with h | h
    · cases h
      rw [dictLookup, if_pos rfl]
    · have hk : k' ≠ k := by
        rintro rfl
        exact hnd.1 (List.mem_map.mpr ⟨(k', v), h, rfl⟩)
      rw [dictLookup, if_neg hk]
      exact ih hnd.2 h

/-- Lookup with a default, for stating sums over matched keys. -/
def dget [DecidableEq κ] (d : List (κ × ν)) (k : κ) (dflt : ν) : ν :=
  (dictLookup d k).getD dflt

theorem matched_sum_eq_finset [DecidableEq κ] (d : List (κ × ν)) (m : List (κ × ν))
    (f : ν → ν → ℚ) (dflt : ν) (hnd : (dictKeys d).Nodup) :
    (d.filterMap (fun p => (dictLookup m p.1).map (fun y => f p.2 y))).sum
      = ∑ k ∈ ((dictKeys d).toFinset ∩ (dictKeys m).toFinset),
          f (dget d k dflt) (dget m k dflt) := by
  induction d with
  | nil => simp [dictKeys]
  | cons p rest ih =>
    obtain ⟨k, v⟩ := p
    rw [dictKeys, List.map_cons, List.nodup_cons] at hnd
    have hknotin : k ∉ dictKeys rest := hnd.1
    have hsum_congr :
        (∑ k' ∈ ((dictKeys rest).toFinset ∩ (dictKeys m).toFinset),
            f (dget rest k' dflt) (dget m k' dflt))
          = ∑ k' ∈ ((dictKeys rest).toFinset ∩ (dictKeys m).toFinset),
              f (dget ((k, v) :: rest) k' dflt) (dget m k' dflt) := by
      refine Finset.sum_congr rfl (fun k' hk' => ?_)
      have hk'mem : k' ∈ dictKeys rest :=
        List.mem_toFinset.mp (Finset.mem_inter.mp hk').1
      have hne : k ≠ k' := fun h => hknotin (h ▸ hk'mem)
      have : dget ((k, v) :: rest) k' dflt = dget rest k' dflt := by
        unfold dget
        rw [dictLookup, if_neg hne]
      rw [this]
    have hkeys : (dictKeys ((k, v) :: rest)).toFinset
        = insert k (dictKeys rest).toFinset := by
      simp [dictKeys]
    cases hm : dictLookup m k with
    | none =>
      have hkm : k ∉ (dictKeys m).toFinset := by
        rw [List.mem_toFinset]
        exact (dictLookup_eq_none_iff m k).mp hm
      rw [List.filterMap_cons]
      simp only [hm, Option.map_none']
      rw [hkeys, Finset.insert_inter_of_not_mem hkm, ih hnd.2, hsum_congr]
    | some y =>
      have hkm : k ∈ (dictKeys m).toFinset := by
        rw [List.mem_toFinset]
        by_contra hn
        rw [← dictLookup_eq_none_iff] at hn
        rw [hm] at hn
        cases hn
      rw [List.filterMap_cons]
      simp only [hm, Option.map_some']
      rw [List.sum_cons, hkeys, Finset.insert_inter_of_mem hkm,
        Finset.sum_insert (by
          intro hc
          exact hknotin (List.mem_toFinset.mp (Finset.mem_inter.mp hc).1)),
        ih hnd.2, hsum_congr]
      congr 2
      · unfold dget
        rw [dictLookup, if_pos rfl, Option.getD_some]
      · unfold dget
        rw [hm, Option.getD_some]

theorem matched_sum_comm [DecidableEq κ] (d m : List (κ × ν)) (f : ν → ν → ℚ) (dflt : ν)
    (hd : (dictKeys d).Nodup) (hm : (dictKeys m).Nodup) (hf : ∀ a b, f a b = f b a) :
    (d.filterMap (fun p => (dictLookup m p.1).map (fun y => f p.2 y))).sum
      = (m.filterMap (fun p => (dictLookup d p.1).map (fun y => f p.2 y))).sum := by
  rw [matched_sum_eq_finset d m f dflt hd, matched_sum_eq_finset m d f dflt hm,
    Finset.inter_comm]
  exact Finset.sum_congr rfl (fun k _ => hf _ _)

theorem matched_sum_self [DecidableEq κ] (d : List (κ × ν)) (f : ν → ν → ℚ)
    (hd : (dictKeys d).Nodup) (hf0 : ∀ a, f a a = 0) :
    (d.filterMap (fun p => (dictLookup d p.1).map (fun y => f p.2 y))).sum = 0 := by
  apply List.sum_eq_zero
  intro x hx
  obtain ⟨p, hp, hpx⟩ := List.mem_filterMap.mp hx
  obtain ⟨k, v⟩ := p
  rw [dictLookup_eq_some_of_mem_nodup hd hp] at hpx
  simp only [Option.map_some', Option.some_inj] at hpx
  rw [← hpx]
  exact hf0 v

theorem filter_none_length [DecidableEq κ] [DecidableEq ν] (l m : List (κ × ν)) :
    (l.filter (fun p => decide (dictLookup m p.1 = none))).length
      = ((dictKeys l).filter (fun k2 => decide (¬ dictMem m k2))).length := by
  have hcong : ∀ p ∈ l,
      (decide (dictLookup m p.1 = none)) = (decide (¬ dictMem m p.1)) :=
    fun p _ => decide_eq_decide.mpr ((dictLookup_eq_none_iff m p.1).trans Iff.rfl)
  rw [List.filter_congr hcong]
  unfold dictKeys
  rw [List.filter_map, List.length_map]
  rfl

theorem filter_none_self_nil [DecidableEq κ] [DecidableEq ν] (d : List (κ × ν)) :
    (d.filter (fun p => decide (dictLookup d p.1 = none))).length = 0 := by
  rw [List.length_eq_zero]
  apply List.filter_eq_nil_iff.mpr
  intro p hp
  simp only [decide_eq_true_eq]
  intro hnone
  exact (dictLookup_eq_none_iff d p.1).mp hnone (List.mem_map.mpr ⟨p, hp, rfl⟩)

theorem filter_not_mem_self_nil [DecidableEq κ] (d : List (κ × ν)) :
    ((dictKeys d).filter (fun k2 => decide (¬ dictMem d k2))).length = 0 := by
  rw [List.length_eq_zero]
  apply List.filter_eq_nil_iff.mpr
  intro k hk
  simp [dictMem, hk]

/-! ## Node and edge distance lemmas -/

theorem nodeDist_self (n : Node) : n.dist n = 0 := by
  simp [Node.dist]

theorem nodeDist_comm (n m : Node) : n.dist m = m.dist n := by
  unfold Node.dist
  rw [abs_sub_comm]
  have h1 : (if n.activation ≠ m.activation then (1 : ℚ) else 0)
      = if m.activation ≠ n.activation then (1 : ℚ) else 0 := by
    by_cases h : n.activation = m.activation
    · rw [h]
    · simp [h, Ne.symm h]
  have h2 : (if n.aggregation ≠ m.aggregation then (1 : ℚ) else 0)
      = if m.aggregation ≠ n.aggregation then (1 : ℚ) else 0 := by
    by_cases h : n.aggregation = m.aggregation
    · rw [h]
    · simp [h, Ne.symm h]
  rw [h1, h2]

theorem edgeDist_self (e : Edge) : e.dist e = 0 := by
  simp [Edge.dist]

theorem edgeDist_comm (e d : Edge) : e.dist d = d.dist e := by
  unfold Edge.dist
  rw [abs_sub_comm]
  have h1 : (if e.active ≠ d.active then (1 : ℚ) else 0)
      = if d.active ≠ e.active then (1 : ℚ) else 0 := by
    by_cases h : e.active = d.active
    · rw [h]
    · simp [h, Ne.symm h]
  rw [h1]

theorem nodesDist_self (g : Genome) (hn : (dictKeys g.nodes).Nodup) :
    g.nodesDist g = 0 := by
  simp only [Genome.nodesDist]
  split_ifs with h
  · rw [matched_sum_self g.nodes Node.dist hn nodeDist_self,
      filter_none_self_nil g.nodes, filter_not_mem_self_nil g.nodes]
    norm_num
  · rfl

theorem edgesDist_self (g : Genome) (he : (dictKeys g.edges).Nodup) :
    g.edgesDist g = 0 := by
  simp only [Genome.edgesDist]
  split_ifs with h
  · rw [matched_sum_self g.edges Edge.dist he edgeDist_self,
      filter_none_self_nil g.edges, filter_not_mem_self_nil g.edges]
    norm_num
  · rfl

theorem nodesDist_comm (g h : Genome) (hg : (dictKeys g.nodes).Nodup)
    (hh : (dictKeys h.nodes).Nodup) : g.nodesDist h = h.nodesDist g := by
  simp only [Genome.nodesDist]
  by_cases hc : g.nodes ≠ [] ∨ h.nodes ≠ []
  · rw [if_pos hc, if_pos (Or.symm hc)]
    rw [matched_sum_comm g.nodes h.nodes Node.dist (mkNode 0 0) hg hh nodeDist_comm,
      filter_none_length g.nodes h.nodes, filter_none_length h.nodes g.nodes]
    rw [max_comm (g.nodes.length : ℚ) (h.nodes.length : ℚ),
      add_comm (((dictKeys h.nodes).filter (fun k2 => decide (¬ dictMem g.nodes k2))).length : ℚ)
        (((dictKeys g.nodes).filter (fun k2 => decide (¬ dictMem h.nodes k2))).length : ℚ)]
  · rw [if_neg hc, if_neg (fun hor => hc (Or.symm hor))]

theorem edgesDist_comm (g h : Genome) (hg : (dictKeys g.edges).Nodup)
    (hh : (dictKeys h.edges).Nodup) : g.edgesDist h = h.edgesDist g := by
  simp only [Genome.edgesDist]
  by_cases hc : g.edges ≠ [] ∨ h.edges ≠ []
  · rw [if_pos hc, if_pos (Or.symm hc)]
    rw [matched_sum_comm g.edges h.edges Edge.dist (mkEdge 0 0 0) hg hh edgeDist_comm,
      filter_none_length g.edges h.edges, filter_none_length h.edges g.edges]
    rw [max_comm (g.edges.length : ℚ) (h.edges.length : ℚ),
      add_comm (((dictKeys h.edges).filter (fun k2 => decide (¬ dictMem g.edges k2))).length : ℚ)
        (((dictKeys g.edges).filter (fun k2 => decide (¬ dictMem h.edges k2))).length : ℚ)]
  · rw [if_neg hc, if_neg (fun hor => hc (Or.symm hor))]

/-! ## Key-set lemmas for inserts and crossover -/

theorem mem_dictKeys_dictInsert [DecidableEq κ] (d : List (κ × ν)) (k : κ) (v : ν) (a : κ) :
    a ∈ dictKeys (dictInsert d k v) ↔ a ∈ dictKeys d ∨ a = k := by
  induction d with
  | nil => simp [dictInsert, dictKeys]
  | cons p rest ih =>
    obtain ⟨k', v'⟩ := p
    unfold dictKeys at ih ⊢
    by_cases h : k' = k
    · subst h
      rw [dictInsert, if_pos rfl]
      simp only [List.map_cons, List.mem_cons]
      tauto
    · rw [dictInsert, if_neg h]
      simp only [List.map_cons, List.mem_cons]
      rw [ih]
      tauto

theorem crossover_edges_fold_keys (other : Genome) (coins : Int × Int → Bool × Bool)
    (w0 : Int × Int → ℚ) :
    ∀ (l acc : List ((Int × Int) × Edge)) (a : Int × Int),
      (a ∈ dictKeys (l.foldl (fun ce p =>
        match dictLookup other.edges p.1 with
        | none => dictInsert ce p.1 p.2
        | some e2 => dictInsert ce p.1
            (crossoverEdge p.2 e2 (mkEdge p.1.1 p.1.2 (w0 p.1)) (coins p.1).1 (coins p.1).2))
        acc)
        ↔ a ∈ dictKeys acc ∨ a ∈ l.map Prod.fst) := by
  intro l
  induction l with
  | nil => simp
  | cons p r ih =>
    intro acc a
    rw [List.foldl_cons]
    cases hm : dictLookup other.edges p.1 with
    | none =>
      simp only [hm]
      rw [ih, mem_dictKeys_dictInsert, List.map_cons, List.mem_cons]
      tauto
    | some e2 =>
      simp only [hm]
      rw [ih, mem_dictKeys_dictInsert, List.map_cons, List.mem_cons]
      tauto

theorem crossover_nodes_fold_keys (other : Genome) (coins : Int → Bool × Bool × Bool × Bool)
    (b0 : Int → ℚ) :
    ∀ (l : List (Int × Node)) (st : List (Int × Node) × Int) (a : Int),
      (a ∈ dictKeys ((l.foldl (fun (acc : List (Int × Node) × Int) p =>
        match dictLookup other.nodes p.1 with
        | none => (dictInsert acc.1 p.1 p.2, acc.2)
        | some n2 =>
          let cs := coins p.1
          (dictInsert acc.1 p.1
            (crossoverNode p.2 n2 (mkNode acc.2 (b0 acc.2)) cs.1 cs.2.1 cs.2.2.1 cs.2.2.2),
           acc.2 + 1)) st)).1
        ↔ a ∈ dictKeys st.1 ∨ a ∈ l.map Prod.fst) := by
  intro l
  induction l with
  | nil => simp
  | cons p r ih =>
    intro st a
    rw [List.foldl_cons]
    cases hm : dictLookup other.nodes p.1 with
    | none =>
      simp only [hm]
      rw [ih, mem_dictKeys_dictInsert, List.map_cons, List.mem_cons]
      tauto
    | some n2 =>
      simp only [hm]
      rw [ih, mem_dictKeys_dictInsert, List.map_cons, List.mem_cons]
      tauto

theorem crossover_edges_keys (g other child : Genome) (coins : Int × Int → Bool × Bool)
    (w0 : Int × Int → ℚ) (a : Int × Int) :
    a ∈ dictKeys (Genome.crossover_edges g other child coins w0).edges
      ↔ a ∈ dictKeys child.edges ∨ a ∈ dictKeys g.edges :=
  crossover_edges_fold_keys other coins w0 g.edges child.edges a

theorem crossover_nodes_keys (g other child : Genome) (coins : Int → Bool × Bool × Bool × Bool)
    (b0 : Int → ℚ) (c0 : Int) (a : Int) :
    a ∈ dictKeys (Genome.crossover_nodes g other child coins b0 c0).1.nodes
      ↔ a ∈ dictKeys child.nodes ∨ a ∈ dictKeys g.nodes :=
  crossover_nodes_fold_keys other coins b0 g.nodes (child.nodes, c0) a

theorem crossover_nodes_edges (g other child : Genome) (coins : Int → Bool × Bool × Bool × Bool)
    (b0 : Int → ℚ) (c0 : Int) :
    (Genome.crossover_nodes g other child coins b0 c0).1.edges = child.edges := rfl

theorem crossover_edges_nodes (g other child : Genome) (coins : Int × Int → Bool × Bool)
    (w0 : Int × Int → ℚ) :
    (Genome.crossover_edges g other child coins w0).nodes = child.nodes := rfl

theorem crossover_edges_io (g other child : Genome) (coins : Int × Int → Bool × Bool)
    (w0 : Int × Int → ℚ) :
    (Genome.crossover_edges g other child coins w0).input_keys = child.input_keys
    ∧ (Genome.crossover_edges g other child coins w0).output_keys = child.output_keys :=
  ⟨rfl, rfl⟩

theorem crossover_nodes_io (g other child : Genome) (coins : Int → Bool × Bool × Bool × Bool)
    (b0 : Int → ℚ) (c0 : Int) :
    (Genome.crossover_nodes g other child coins b0 c0).1.input_keys = child.input_keys
    ∧ (Genome.crossover_nodes g other child coins b0 c0).1.output_keys = child.output_keys :=
  ⟨rfl, rfl⟩

theorem initGenome_edges_keys (key : Int) (isz osz : Nat) (nb : Int → ℚ)
    (ew : Int × Int → ℚ) (a : Int × Int) :
    a ∈ dictKeys (initGenome key isz osz nb ew).edges
      ↔ a.1 ∈ (initGenome key isz osz nb ew).input_keys
        ∧ a.2 ∈ (initGenome key isz osz nb ew).output_keys := by
  obtain ⟨a1, a2⟩ := a
  constructor
  · intro h
    obtain ⟨p, hp, hfst⟩ := List.mem_map.mp h
    obtain ⟨u, hu, hpu⟩ := List.mem_flatMap.mp hp
    obtain ⟨v, hv, hpv⟩ := List.mem_map.mp hpu
    rw [← hpv] at hfst
    rw [Prod.mk.injEq] at hfst
    obtain ⟨rfl, rfl⟩ := hfst
    exact ⟨hu, hv⟩
  · rintro ⟨h1, h2⟩
    apply List.mem_map.mpr
    refine ⟨((a1, a2), mkEdge a1 a2 (ew (a1, a2))), ?_, rfl⟩
    apply List.mem_flatMap.mpr
    exact ⟨a1, h1, List.mem_map.mpr ⟨a2, h2, rfl⟩⟩

/-! ## Claim C4 -/

/-- Claim C4 (counterexample): for the reachable genome `pW` (a fresh
1-in/1-out genome whose only edge `(-1, 0)` was removed by a del-edge
mutation), the pre-mutation crossover child of `pW` with itself contains
edge key `(-1, 0)` even though `pW` does not — the child's fresh initial
topology re-adds it, so "every child edge key is an edge key of p" fails. -/
theorem C4_counterexample :
    dictMem childPairW.1.edges ((-1 : Int), (0 : Int))
    ∧ ¬ dictMem pW.edges ((-1 : Int), (0 : Int)) := by decide

/-- Claim C4 (amended): crossover of `p` with itself (either fitness order;
before mutation) yields a child containing every edge key of `p`, and every
child edge key is an edge key of `p` **or an edge of the fresh fully
connected input→output initial topology** the child starts from. -/
theorem C4_amended (p : Genome) (f1 f2 : ℚ) (gid : Int) (nb : Int → ℚ) (ew : Int × Int → ℚ)
    (ec : Int × Int → Bool × Bool) (w0 : Int × Int → ℚ)
    (nc : Int → Bool × Bool × Bool × Bool) (b0 : Int → ℚ) (c0 : Int) :
    (∀ k ∈ dictKeys p.edges,
      k ∈ dictKeys (newChildCrossover p p f1 f2 gid nb ew ec w0 nc b0 c0).1.edges)
    ∧ ∀ k ∈ dictKeys (newChildCrossover p p f1 f2 gid nb ew ec w0 nc b0 c0).1.edges,
        k ∈ dictKeys p.edges
        ∨ (k.1 ∈ (newChildCrossover p p f1 f2 gid nb ew ec w0 nc b0 c0).1.input_keys
          ∧ k.2 ∈ (newChildCrossover p p f1 f2 gid nb ew ec w0 nc b0 c0).1.output_keys) := by
  have hredge : (newChildCrossover p p f1 f2 gid nb ew ec w0 nc b0 c0).1.edges
      = (Genome.crossover_edges p p
          (initGenome gid p.input_keys.length p.output_keys.length nb ew) ec w0).edges := by
    simp only [newChildCrossover, ite_self]
    rfl
  have hin : (newChildCrossover p p f1 f2 gid nb ew ec w0 nc b0 c0).1.input_keys
      = (initGenome gid p.input_keys.length p.output_keys.length nb ew).input_keys := by
    simp only [newChildCrossover, ite_self]
    rfl
  have hout : (newChildCrossover p p f1 f2 gid nb ew ec w0 nc b0 c0).1.output_keys
      = (initGenome gid p.input_keys.length p.output_keys.length nb ew).output_keys := by
    simp only [newChildCrossover, ite_self]
    rfl
  constructor
  · intro k hk
    rw [hredge]
    exact (crossover_edges_keys p p _ ec w0 k).mpr (Or.inr hk)
  · intro k hk
    rw [hredge] at hk
    rcases (crossover_edges_keys p p _ ec w0 k).mp hk with h | h
    · right
      rw [hin, hout]
      exact (initGenome_edges_keys gid _ _ nb ew k).mp h
    · exact Or.inl h

/-! ## Claim C5 -/

/-- Claim C5 (counterexample): node crossover of `gW` with itself (both
parents have a node at key 0, counter at 10) does **not** put a new entry at
fresh key 10: the child's node map has no key 10, the entry remains at map
key 0 (only the stored node's `key` field is the fresh id 10), and the
child's node-map keys coincide with the parent's, so alignment is kept. -/
theorem C5_counterexample :
    ¬ dictMem crossNodesW.1.nodes (10 : Int)
    ∧ dictLookup crossNodesW.1.nodes 0
      = some { key := 10, bias := 0, response := 1, activation := ActKind.sigmoid,
               aggregation := AggKind.npSum }
    ∧ dictKeys crossNodesW.1.nodes = dictKeys gW.nodes := by decide

/-- Claim C5 (amended): when both parents have a node at key `k`, node
crossover stores the newly synthesised node (whose `key` field is the next
global id) **at map key `k`**; the child's node-map keys stay within the
child's and first parent's keys, so hidden-node keys remain aligned and
downstream distance computations (which match by map key) count such nodes
as matched, not disjoint. -/
theorem C5_amended (p1 p2 child : Genome) (coins : Int → Bool × Bool × Bool × Bool)
    (b0 : Int → ℚ) (c0 : Int) (k : Int)
    (h1 : k ∈ dictKeys p1.nodes) (h2 : k ∈ dictKeys p2.nodes) :
    (∃ n, dictLookup (Genome.crossover_nodes p1 p2 child coins b0 c0).1.nodes k = some n)
    ∧ ∀ a ∈ dictKeys (Genome.crossover_nodes p1 p2 child coins b0 c0).1.nodes,
        a ∈ dictKeys child.nodes ∨ a ∈ dictKeys p1.nodes := by
  constructor
  · have hmem : k ∈ dictKeys (Genome.crossover_nodes p1 p2 child coins b0 c0).1.nodes :=
      (crossover_nodes_keys p1 p2 child coins b0 c0 k).mpr (Or.inr h1)
    cases hl : dictLookup (Genome.crossover_nodes p1 p2 child coins b0 c0).1.nodes k with
    | none => exact absurd hmem ((dictLookup_eq_none_iff _ _).mp hl)
    | some n => exact ⟨n, rfl⟩
  · intro a ha
    exact (crossover_nodes_keys p1 p2 child coins b0 c0 a).mp ha

/-- Witness for the amended C5 at a concrete instance: `gW` crossed with
itself into a fresh child, counter 10, shared node key 0. -/
theorem C5_amended_witness :
    (∃ n, dictLookup crossNodesW.1.nodes 0 = some n)
    ∧ ∀ a ∈ dictKeys crossNodesW.1.nodes,
        a ∈ dictKeys (initGenome 7 1 1 (fun _ => 0) (fun _ => 0)).nodes
        ∨ a ∈ dictKeys gW.nodes :=
  C5_amended gW gW (initGenome 7 1 1 (fun _ => 0) (fun _ => 0))
    (fun _ => (true, true, true, true)) (fun _ => 0) 10 0 (by decide) (by decide)

/-! ## Claim C9 -/

/-- Claim C9: genome distance is a symmetric pseudometric at the point
level: for every genome `g` (with dict key uniqueness, as Python dicts
guarantee) `dist g g = 0`, and for all genomes `g`, `h`,
`dist g h = dist h g`. -/
theorem C9_dist_pseudometric (g h : Genome)
    (hgn : (dictKeys g.nodes).Nodup) (hge : (dictKeys g.edges).Nodup)
    (hhn : (dictKeys h.nodes).Nodup) (hhe : (dictKeys h.edges).Nodup) :
    g.dist g = 0 ∧ g.dist h = h.dist g := by
  refine ⟨?_, ?_⟩
  · rw [Genome.dist, nodesDist_self g hgn, edgesDist_self g hge, add_zero]
  · rw [Genome.dist, Genome.dist, nodesDist_comm g h hgn hhn, edgesDist_comm g h hge hhe]

/-- Witness for C9 at the concrete genomes `gW`, `hW`. -/
theorem C9_witness : gW.dist gW = 0 ∧ gW.dist hW = hW.dist gW :=
  C9_dist_pseudometric gW hW (by decide) (by decide) (by decide) (by decide)

/-! ## Rounding and quota lemmas (claim C8) -/

theorem pyRound_bounds (q : ℚ) :
    q - 1 / 2 ≤ (pyRound q : ℚ) ∧ (pyRound q : ℚ) ≤ q + 1 / 2 := by
  have h0 : (⌊q⌋ : ℚ) ≤ q := Int.floor_le q
  have h1 : q < ⌊q⌋ + 1 := Int.lt_floor_add_one q
  unfold pyRound
  split_ifs with ha hb hc <;> constructor <;> push_cast <;> linarith

theorem sum_map_sub_const {α : Type} (l : List α) (f : α → ℚ) (c : ℚ) :
    (l.map (fun a => f a - c)).sum = (l.map f).sum - l.length * c := by
  induction l with
  | nil => simp
  | cons a r ih =>
    simp only [List.map_cons, List.sum_cons, ih, List.length_cons]
    push_cast
    ring

theorem sum_map_add_const {α : Type} (l : List α) (f : α → ℚ) (c : ℚ) :
    (l.map (fun a => f a + c)).sum = (l.map f).sum + l.length * c := by
  induction l with
  | nil => simp
  | cons a r ih =>
    simp only [List.map_cons, List.sum_cons, ih, List.length_cons]
    push_cast
    ring

theorem int_cast_list_sum (l : List Int) :
    ((l.sum : Int) : ℚ) = (l.map (fun i : Int => (i : ℚ))).sum := by
  induction l with
  | nil => simp
  | cons a r ih => simp [ih]

theorem min_species_size_cast : ((MIN_SPECIES_SIZE : Int) : ℚ) = 2 := by
  norm_num [MIN_SPECIES_SIZE]

theorem sChoice_ge_two (afSum af : ℚ) (N : Nat) :
    (2 : ℚ) ≤ if 0 < afSum then max ((MIN_SPECIES_SIZE : Int) : ℚ) (af / afSum * (N : ℚ))
      else ((MIN_SPECIES_SIZE : Int) : ℚ) := by
  split_ifs
  · rw [← min_species_size_cast]
    exact le_max_left _ _
  · rw [min_species_size_cast]

theorem rawSize_pos (prevSize : Int) (s : ℚ) (hps : 1 ≤ prevSize) (hs : 2 ≤ s) :
    1 ≤ (if 0 < |pyRound ((s - prevSize) * (1 / 2))| then
        prevSize + pyRound ((s - prevSize) * (1 / 2))
      else if 0 < (s - prevSize) * (1 / 2) then prevSize + 1
      else if (s - prevSize) * (1 / 2) < 0 then prevSize - 1
      else prevSize) := by
  have hpsq : (1 : ℚ) ≤ (prevSize : ℚ) := by exact_mod_cast hps
  obtain ⟨hrlo, hrhi⟩ := pyRound_bounds ((s - prevSize) * (1 / 2))
  by_cases hc : 0 < |pyRound ((s - (prevSize : ℚ)) * (1 / 2))|
  · rw [if_pos hc]
    have hq : (1 : ℚ) ≤ ((prevSize + pyRound ((s - prevSize) * (1 / 2)) : Int) : ℚ) := by
      push_cast
      linarith
    exact_mod_cast hq
  · rw [if_neg hc]
    have hc0 : pyRound ((s - (prevSize : ℚ)) * (1 / 2)) = 0 := by
      rcases (abs_nonneg (pyRound ((s - (prevSize : ℚ)) * (1 / 2)))).lt_or_eq with hlt | heq
      · exact absurd hlt hc
      · exact abs_eq_zero.mp heq.symm
    rw [hc0] at hrlo hrhi
    by_cases hd1 : 0 < (s - (prevSize : ℚ)) * (1 / 2)
    · rw [if_pos hd1]
      omega
    · rw [if_neg hd1]
      by_cases hd2 : (s - (prevSize : ℚ)) * (1 / 2) < 0
      · rw [if_pos hd2]
        have hlt : (2 : ℚ) < (prevSize : ℚ) := by linarith
        have : (2 : Int) < prevSize := by exact_mod_cast hlt
        omega
      · rw [if_neg hd2]
        exact hps

theorem rawSizesLoop_pos (prev : List (Int × Int)) (afSum : ℚ) (N : Nat)
    (hprev : ∀ r ∈ prev, 1 ≤ r.2) :
    ∀ (paf : List (Int × ℚ)) (out : List (Int × Int)),
      rawSizesLoop prev afSum N paf = some out → ∀ r ∈ out, 1 ≤ r.2 := by
  intro paf
  induction paf with
  | nil =>
    intro out h r hr
    rw [rawSizesLoop] at h
    cases h
    simp at hr
  | cons p rest ih =>
    intro out h r hr
    obtain ⟨pid, af⟩ := p
    rw [rawSizesLoop] at h
    cases hlk : dictLookup prev pid with
    | none => simp [hlk] at h
    | some prevSize =>
      cases hrec : rawSizesLoop prev afSum N rest with
      | none => simp [hlk, hrec] at h
      | some tl =>
        simp only [hlk, hrec, Option.some_inj] at h
        subst h
        rcases List.mem_cons.mp hr with hhead | hmem
        · rw [hhead]
          dsimp only
          exact rawSize_pos prevSize _ (hprev _ (mem_of_dictLookup_eq_some hlk))
            (sChoice_ge_two afSum af N)
        · exact ih tl hrec r hmem

theorem sum_map_mul_const {α : Type} (l : List α) (f : α → ℚ) (c : ℚ) :
    (l.map (fun a => f a * c)).sum = (l.map f).sum * c := by
  induction l with
  | nil => simp
  | cons a r ih =>
    simp only [List.map_cons, List.sum_cons, ih]
    ring

/-- Sum bounds for the renormalised, floored sizes: with every raw size at
least 1 and a nonzero total, the final sizes sum to `N` within `-K/2`
(rounding) and `+2K` (the `MIN_SPECIES_SIZE` floor). -/
theorem renorm_bounds (l : List (Int × Int)) (N : Nat)
    (hpos : ∀ r ∈ l, 1 ≤ r.2) (ht : (l.map Prod.snd).sum ≠ 0) :
    (N : ℚ) - (l.length : ℚ) / 2
        ≤ (((l.map (fun p => max MIN_SPECIES_SIZE
            (pyRound ((p.2 : ℚ) * ((N : ℚ) / (((l.map Prod.snd).sum : Int) : ℚ)))))).sum : Int) : ℚ)
    ∧ (((l.map (fun p => max MIN_SPECIES_SIZE
            (pyRound ((p.2 : ℚ) * ((N : ℚ) / (((l.map Prod.snd).sum : Int) : ℚ)))))).sum : Int) : ℚ)
        ≤ (N : ℚ) + 2 * (l.length : ℚ) := by
  have htpos : (0 : Int) < (l.map Prod.snd).sum := by
    rcases lt_or_eq_of_le (List.sum_nonneg (fun i hi => by
      obtain ⟨p, hp, rfl⟩ := List.mem_map.mp hi
      exact le_trans zero_le_one (hpos p hp))) with hlt | heq
    · exact hlt
    · exact absurd heq.symm ht
  have htq : (0 : ℚ) < (((l.map Prod.snd).sum : Int) : ℚ) := by exact_mod_cast htpos
  have hxsum : (l.map (fun p =>
      ((p.2 : ℚ) * ((N : ℚ) / (((l.map Prod.snd).sum : Int) : ℚ))))).sum = (N : ℚ) := by
    rw [sum_map_mul_const]
    have hcast : (l.map (fun p => ((p.2 : Int) : ℚ))).sum
        = (((l.map Prod.snd).sum : Int) : ℚ) := by
      rw [int_cast_list_sum, List.map_map]
      rfl
    rw [hcast, ← mul_div_assoc, mul_comm, mul_div_assoc, div_self (ne_of_gt htq), mul_one]
  have hcastsum : (((l.map (fun p => max MIN_SPECIES_SIZE
      (pyRound ((p.2 : ℚ) * ((N : ℚ) / (((l.map Prod.snd).sum : Int) : ℚ)))))).sum : Int) : ℚ)
      = (l.map (fun p => ((max MIN_SPECIES_SIZE
          (pyRound ((p.2 : ℚ) * ((N : ℚ) / (((l.map Prod.snd).sum : Int) : ℚ)))) : Int) : ℚ))).sum := by
    rw [int_cast_list_sum, List.map_map]
    rfl
  have hlo : ∀ p ∈ l,
      ((p.2 : ℚ) * ((N : ℚ) / (((l.map Prod.snd).sum : Int) : ℚ))) - 1 / 2
        ≤ ((max MIN_SPECIES_SIZE
            (pyRound ((p.2 : ℚ) * ((N : ℚ) / (((l.map Prod.snd).sum : Int) : ℚ)))) : Int) : ℚ) := by
    intro p _
    have h1 := (pyRound_bounds ((p.2 : ℚ) * ((N : ℚ) / (((l.map Prod.snd).sum : Int) : ℚ)))).1
    have h2 : ((pyRound ((p.2 : ℚ) * ((N : ℚ) / (((l.map Prod.snd).sum : Int) : ℚ))) : Int) : ℚ)
        ≤ ((max MIN_SPECIES_SIZE
            (pyRound ((p.2 : ℚ) * ((N : ℚ) / (((l.map Prod.snd).sum : Int) : ℚ)))) : Int) : ℚ) := by
      exact_mod_cast le_max_right _ _
    linarith
  have hhi : ∀ p ∈ l,
      ((max MIN_SPECIES_SIZE
          (pyRound ((p.2 : ℚ) * ((N : ℚ) / (((l.map Prod.snd).sum : Int) : ℚ)))) : Int) : ℚ)
        ≤ ((p.2 : ℚ) * ((N : ℚ) / (((l.map Prod.snd).sum : Int) : ℚ))) + 2 := by
    intro p hp
    have h1 := (pyRound_bounds ((p.2 : ℚ) * ((N : ℚ) / (((l.map Prod.snd).sum : Int) : ℚ)))).2
    have hx0 : (0 : ℚ) ≤ (p.2 : ℚ) * ((N : ℚ) / (((l.map Prod.snd).sum : Int) : ℚ)) := by
      apply mul_nonneg
      · exact_mod_cast le_trans zero_le_one (hpos p hp)
      · exact div_nonneg (Nat.cast_nonneg N) (le_of_lt htq)
    rw [Int.cast_max, min_species_size_cast]
    apply max_le
    · linarith
    · linarith
  rw [hcastsum]
  constructor
  · calc (N : ℚ) - (l.length : ℚ) / 2
        = (l.map (fun p =>
            ((p.2 : ℚ) * ((N : ℚ) / (((l.map Prod.snd).sum : Int) : ℚ))) - 1 / 2)).sum := by
          rw [sum_map_sub_const, hxsum]
          ring
      _ ≤ _ := List.sum_le_sum hlo
  · calc _ ≤ (l.map (fun p =>
          ((p.2 : ℚ) * ((N : ℚ) / (((l.map Prod.snd).sum : Int) : ℚ))) + 2)).sum :=
        List.sum_le_sum hhi
      _ = (N : ℚ) + 2 * (l.length : ℚ) := by
          rw [sum_map_add_const, hxsum]
          ring

/-! ## Claim C8 -/

/-- Claim C8 (counterexample): three species of previous size 2 with equal
adjusted fitness 1/3 and population size 4.  The code returns size 2 for
each species, so the sizes sum to 6 while `N = 4`: the deviation `|6 - 4|`
exceeds half a rounding unit per species (`K/2 = 3/2`), because the
`MIN_SPECIES_SIZE` floor is applied after renormalisation.  Hence
"Σ sizes = N up to rounding" fails as stated. -/
theorem C8_counterexample :
    nextPartitionSizes partsW3 pafW3 4 = some [(1, 2), (2, 2), (3, 2)]
    ∧ (([((1 : Int), (2 : Int)), (2, 2), (3, 2)] : List (Int × Int)).length : Int)
      < 2 * |(((([((1 : Int), (2 : Int)), (2, 2), (3, 2)] : List (Int × Int)).map Prod.snd).sum
          - (4 : Int)))| := by
  constructor
  · norm_num [nextPartitionSizes, partsW3, pafW3, rawSizesLoop, dictLookup, pyRound,
      MIN_SPECIES_SIZE, max_def, gW, initGenome]
    have hfr : Int.fract ((4 : ℚ) / 3) = 1 / 3 := by
      rw [Int.fract]
      norm_num
    rw [hfr]
    norm_num
  · decide

/-- Claim C8 (amended): whenever `next_partition_sizes` returns (every
species has at least one member), every returned size is at least
`MIN_SPECIES_SIZE`, and the sizes sum to `N` within `[-K/2, +2K]` for `K`
species: half a rounding unit per species below, and up to 2 per species
above due to the `MIN_SPECIES_SIZE` floor applied after renormalisation —
not "N up to rounding" alone. -/
theorem C8_amended (parts : List (Int × Partition)) (paf : List (Int × ℚ)) (N : Nat)
    (sizes : List (Int × Int))
    (h : nextPartitionSizes parts paf N = some sizes)
    (hmem : ∀ q ∈ parts, 1 ≤ q.2.members.length) :
    (∀ r ∈ sizes, MIN_SPECIES_SIZE ≤ r.2)
    ∧ (N : ℚ) - (sizes.length : ℚ) / 2 ≤ (((sizes.map Prod.snd).sum : Int) : ℚ)
    ∧ (((sizes.map Prod.snd).sum : Int) : ℚ) ≤ (N : ℚ) + 2 * (sizes.length : ℚ) := by
  rw [nextPartitionSizes] at h
  cases hraw : rawSizesLoop (parts.map (fun p => (p.1, (p.2.members.length : Int))))
      ((paf.map Prod.snd).sum) N paf with
  | none =>
    rw [hraw] at h
    cases h
  | some raws =>
    rw [hraw, Option.some_bind] at h
    by_cases ht : ((raws.map Prod.snd).sum : Int) = 0
    · rw [if_pos ht] at h
      cases h
    · rw [if_neg ht] at h
      have hsz := Option.some_inj.mp h
      have hprev : ∀ r ∈ parts.map (fun p => (p.1, (p.2.members.length : Int))), 1 ≤ r.2 := by
        intro r hr
        obtain ⟨q, hq, rfl⟩ := List.mem_map.mp hr
        dsimp only
        exact_mod_cast hmem q hq
      have hpos : ∀ r ∈ raws, 1 ≤ r.2 :=
        rawSizesLoop_pos _ _ N hprev paf raws hraw
      obtain ⟨hblo, hbhi⟩ := renorm_bounds raws N hpos ht
      have hsnd : sizes.map Prod.snd
          = raws.map (fun p => max MIN_SPECIES_SIZE
              (pyRound ((p.2 : ℚ) * ((N : ℚ) / (((raws.map Prod.snd).sum : Int) : ℚ))))) := by
        rw [← hsz, List.map_map]
        rfl
      have hlen : sizes.length = raws.length := by
        rw [← hsz, List.length_map]
      refine ⟨?_, ?_, ?_⟩
      · intro r hr
        rw [← hsz] at hr
        obtain ⟨p, hp, rfl⟩ := List.mem_map.mp hr
        exact le_max_left _ _
      · rw [hsnd, hlen]
        exact hblo
      · rw [hsnd, hlen]
        exact hbhi

/-- Witness for the amended C8 at the concrete input of the counterexample. -/
theorem C8_amended_witness :
    (∀ r ∈ ([((1 : Int), (2 : Int)), (2, 2), (3, 2)] : List (Int × Int)),
        MIN_SPECIES_SIZE ≤ r.2)
    ∧ (4 : ℚ) - ((([((1 : Int), (2 : Int)), (2, 2), (3, 2)] : List (Int × Int)).length : ℚ)) / 2
        ≤ (((([((1 : Int), (2 : Int)), (2, 2), (3, 2)] : List (Int × Int)).map Prod.snd).sum : Int) : ℚ)
    ∧ (((([((1 : Int), (2 : Int)), (2, 2), (3, 2)] : List (Int × Int)).map Prod.snd).sum : Int) : ℚ)
        ≤ (4 : ℚ) + 2 * ((([((1 : Int), (2 : Int)), (2, 2), (3, 2)] : List (Int × Int)).length : ℚ)) :=
  C8_amended partsW3 pafW3 4 [(1, 2), (2, 2), (3, 2)]
    (by
      norm_num [nextPartitionSizes, partsW3, pafW3, rawSizesLoop, dictLookup, pyRound,
        MIN_SPECIES_SIZE, max_def, gW, initGenome]
      have hfr : Int.fract ((4 : ℚ) / 3) = 1 / 3 := by
        rw [Int.fract]
        norm_num
      rw [hfr]
      norm_num)
    (by decide)

/-! ## Forward-pass lemmas (claims C1 and C6) -/

theorem dictLookup_isSome_of_mem [DecidableEq κ] {d : List (κ × ν)} {k : κ}
    (h : k ∈ dictKeys d) : ∃ v, dictLookup d k = some v := by
  cases hl : dictLookup d k with
  | none => exact absurd h ((dictLookup_eq_none_iff d k).mp hl)
  | some v => exact ⟨v, rfl⟩

theorem dictLookup_dictInsert_self [DecidableEq κ] (d : List (κ × ν)) (k : κ) (v : ν) :
    dictLookup (dictInsert d k v) k = some v := by
  induction d with
  | nil => simp [dictInsert, dictLookup]
  | cons p rest ih =>
    obtain ⟨k', v'⟩ := p
    by_cases h : k' = k
    · subst h
      rw [dictInsert, if_pos rfl, dictLookup, if_pos rfl]
    · rw [dictInsert, if_neg h, dictLookup, if_neg h]
      exact ih

theorem dictLookup_dictInsert_ne [DecidableEq κ] (d : List (κ × ν)) {j k : κ} (v : ν)
    (h : j ≠ k) : dictLookup (dictInsert d j v) k = dictLookup d k := by
  induction d with
  | nil => simp [dictInsert, dictLookup, h]
  | cons p rest ih =>
    obtain ⟨k', v'⟩ := p
    by_cases hk : k' = j
    · subst hk
      rw [dictInsert, if_pos rfl, dictLookup, dictLookup, if_neg h, if_neg h]
    · rw [dictInsert, if_neg hk]
      by_cases hk2 : k' = k
      · subst hk2
        rw [dictLookup, if_pos rfl, dictLookup, if_pos rfl]
      · rw [dictLookup, if_neg hk2, dictLookup, if_neg hk2]
        exact ih

theorem mem_keys_foldl_insert {α : Type} [DecidableEq κ] (f : α → κ) (g : α → ν) :
    ∀ (l : List α) (base : List (κ × ν)) (a : κ),
      a ∈ dictKeys (l.foldl (fun d x => dictInsert d (f x) (g x)) base)
        ↔ a ∈ dictKeys base ∨ a ∈ l.map f := by
  intro l
  induction l with
  | nil => simp
  | cons x r ih =>
    intro base a
    rw [List.foldl_cons, ih, mem_dictKeys_dictInsert, List.map_cons, List.mem_cons]
    tauto

theorem foldl_insert_const_lookup :
    ∀ (ks : List Int) (base : List (Int × ℝ)) (k : Int),
      (k ∈ ks ∨ dictLookup base k = some 0) →
      dictLookup (ks.foldl (fun d j => dictInsert d j (0 : ℝ)) base) k = some 0 := by
  intro ks
  induction ks with
  | nil =>
    intro base k h
    rcases h with h | h
    · simp at h
    · exact h
  | cons j rest ih =>
    intro base k h
    rw [List.foldl_cons]
    apply ih
    by_cases hk : k ∈ rest
    · exact Or.inl hk
    · right
      rcases h with h | h
      · rcases List.mem_cons.mp h with rfl | h
        · exact dictLookup_dictInsert_self base k 0
        · exact absurd h hk
      · by_cases hkj : j = k
        · subst hkj
          exact dictLookup_dictInsert_self base j 0
        · rw [dictLookup_dictInsert_ne base 0 hkj]
          exact h

theorem foldl_insert_lookup_not_mem :
    ∀ (ps : List (Int × ℝ)) (base : List (Int × ℝ)) (k : Int),
      (∀ p ∈ ps, p.1 ≠ k) →
      dictLookup (ps.foldl (fun d p => dictInsert d p.1 p.2) base) k = dictLookup base k := by
  intro ps
  induction ps with
  | nil => intro base k _; rfl
  | cons p rest ih =>
    intro base k h
    rw [List.foldl_cons, ih _ _ (fun q hq => h q (List.mem_cons_of_mem _ hq)),
      dictLookup_dictInsert_ne base p.2 (h p (List.mem_cons_self _ _))]

theorem gatherInputs_some (values : List (Int × ℝ)) :
    ∀ (inc : List (Int × ℚ)), (∀ q ∈ inc, q.1 ∈ dictKeys values) →
      ∃ ins, gatherInputs values inc = some ins := by
  intro inc
  induction inc with
  | nil => exact fun _ => ⟨[], rfl⟩
  | cons q rest ih =>
    intro h
    obtain ⟨i, w⟩ := q
    obtain ⟨vi, hvi⟩ := dictLookup_isSome_of_mem (h (i, w) (List.mem_cons_self _ _))
    obtain ⟨tl, htl⟩ := ih (fun q hq => h q (List.mem_cons_of_mem _ hq))
    refine ⟨(vi * (w : ℝ)) :: tl, ?_⟩
    rw [gatherInputs, hvi, htl]

theorem forwardEval_some :
    ∀ (ens : List EvalNode) (values : List (Int × ℝ)) (avail : Finset Int),
      evalOk avail ens → (∀ a ∈ avail, a ∈ dictKeys values) →
      ∃ v2, forwardEval ens values = some v2
        ∧ ∀ a, a ∈ dictKeys values → a ∈ dictKeys v2 := by
  intro ens
  induction ens with
  | nil => exact fun values _ _ _ => ⟨values, rfl, fun a ha => ha⟩
  | cons en rest ih =>
    intro values avail hok hav
    obtain ⟨h1, h2⟩ := hok
    obtain ⟨ins, hins⟩ := gatherInputs_some values en.incoming
      (fun q hq => hav q.1 (h1 q hq))
    have hav2 : ∀ a ∈ insert en.node_id avail,
        a ∈ dictKeys (dictInsert values en.node_id
          (actEval en.activation ((en.bias : ℝ) + aggEval en.aggregation ins))) := by
      intro a ha
      rw [mem_dictKeys_dictInsert]
      rcases Finset.mem_insert.mp ha with rfl | ha
      · exact Or.inr rfl
      · exact Or.inl (hav a ha)
    obtain ⟨v2, hv2, hkeys⟩ := ih _ _ h2 hav2
    refine ⟨v2, ?_, ?_⟩
    · rw [forwardEval, hins]
      exact hv2
    · intro a ha
      exact hkeys a ((mem_dictKeys_dictInsert _ _ _ _).mpr (Or.inl ha))

theorem outputsOf_some (values : List (Int × ℝ)) :
    ∀ (ks : List Int), (∀ k ∈ ks, k ∈ dictKeys values) →
      ∃ ys, outputsOf values ks = some ys ∧ ys.length = ks.length := by
  intro ks
  induction ks with
  | nil => exact fun _ => ⟨[], rfl, rfl⟩
  | cons k rest ih =>
    intro h
    obtain ⟨v, hv⟩ := dictLookup_isSome_of_mem (h k (List.mem_cons_self _ _))
    obtain ⟨ys, hys, hlen⟩ := ih (fun j hj => h j (List.mem_cons_of_mem _ hj))
    refine ⟨v :: ys, ?_, ?_⟩
    · rw [outputsOf, hv, hys]
    · simp [hlen]

theorem outputsOf_get (values : List (Int × ℝ)) :
    ∀ (ks : List Int) (ys : List ℝ), outputsOf values ks = some ys →
      ∀ (i : Nat) (k : Int), ks.get? i = some k → ys.get? i = dictLookup values k := by
  intro ks
  induction ks with
  | nil =>
    intro ys _ i k hk
    simp at hk
  | cons j rest ih =>
    intro ys hys i k hk
    rw [outputsOf] at hys
    cases hv : dictLookup values j with
    | none => rw [hv] at hys; cases hys
    | some v =>
      cases hrest : outputsOf values rest with
      | none => rw [hv, hrest] at hys; cases hys
      | some tl =>
        rw [hv, hrest] at hys
        cases hys
        cases i with
        | zero =>
          simp only [List.get?] at hk ⊢
          cases hk
          exact hv.symm
        | succ i =>
          simp only [List.get?] at hk ⊢
          exact ih tl hrest i k hk

theorem forwardEval_lookup_untouched :
    ∀ (ens : List EvalNode) (values v2 : List (Int × ℝ)) (k : Int),
      (∀ en ∈ ens, en.node_id ≠ k) → forwardEval ens values = some v2 →
      dictLookup v2 k = dictLookup values k := by
  intro ens
  induction ens with
  | nil =>
    intro values v2 k _ h
    cases h
    rfl
  | cons en rest ih =>
    intro values v2 k hne h
    rw [forwardEval] at h
    cases hins : gatherInputs values en.incoming with
    | none => rw [hins] at h; cases h
    | some ins =>
      rw [hins] at h
      rw [ih _ _ _ (fun e he => hne e (List.mem_cons_of_mem _ he)) h,
        dictLookup_dictInsert_ne values _ (hne en (List.mem_cons_self _ _))]

theorem zip_eq_zip_take :
    ∀ (l : List Int) (x : List ℝ), l.zip x = l.zip (x.take l.length) := by
  intro l
  induction l with
  | nil => intro x; rfl
  | cons a r ih =>
    intro x
    cases x with
    | nil => rfl
    | cons b xs =>
      simp only [List.zip_cons_cons, List.length_cons, List.take_succ_cons]
      rw [← ih xs]

/-! ## Compiler invariant lemmas -/

theorem evalOk_mono :
    ∀ (ens : List EvalNode) (s t : Finset Int), s ⊆ t → evalOk s ens → evalOk t ens := by
  intro ens
  induction ens with
  | nil => exact fun _ _ _ _ => trivial
  | cons en rest ih =>
    intro s t hst h
    exact ⟨fun p hp => hst (h.1 p hp), ih _ _ (Finset.insert_subset_insert _ hst) h.2⟩

theorem evalOk_append :
    ∀ (a b : List EvalNode) (s : Finset Int),
      evalOk s a → evalOk (s ∪ (a.map EvalNode.node_id).toFinset) b → evalOk s (a ++ b) := by
  intro a
  induction a with
  | nil =>
    intro b s _ hb
    have hs : s ∪ (([] : List EvalNode).map EvalNode.node_id).toFinset = s := by simp
    rw [hs] at hb
    exact hb
  | cons en r ih =>
    intro b s h hb
    refine ⟨h.1, ih b (insert en.node_id s) h.2 (evalOk_mono b _ _ ?_ hb)⟩
    intro x hx
    rcases Finset.mem_union.mp hx with hx | hx
    · exact Finset.mem_union_left _ (Finset.mem_insert_of_mem hx)
    · rw [List.map_cons, List.toFinset_cons] at hx
      rcases Finset.mem_insert.mp hx with rfl | hx
      · exact Finset.mem_union_left _ (Finset.mem_insert_self _ _)
      · exact Finset.mem_union_right _ hx

theorem incomingOf_sources (g : Genome) :
    ∀ (edges : List (Int × Int)) (n : Int) (inc : List (Int × ℚ)),
      incomingOf edges g n = some inc → ∀ q ∈ inc, (q.1, n) ∈ edges := by
  intro edges
  induction edges with
  | nil =>
    intro n inc h q hq
    cases h
    simp at hq
  | cons p rest ih =>
    intro n inc h q hq
    rw [incomingOf] at h
    by_cases hp : p.2 = n
    · rw [if_pos hp] at h
      cases he : dictLookup g.edges p with
      | none => rw [he] at h; cases h
      | some e =>
        cases ht : incomingOf rest g n with
        | none => rw [he, ht] at h; cases h
        | some tl =>
          rw [he, ht] at h
          cases h
          rcases List.mem_cons.mp hq with rfl | hq
          · apply List.mem_cons.mpr
            left
            show (p.1, n) = p
            rw [← hp]
          · exact List.mem_cons_of_mem _ (ih n tl ht q hq)
    · rw [if_neg hp] at h
      exact List.mem_cons_of_mem _ (ih n inc h q hq)

theorem evalNodesOfLayer_spec (edges : List (Int × Int)) (g : Genome) :
    ∀ (ns : List Int) (a : List EvalNode), evalNodesOfLayer edges g ns = some a →
      a.map EvalNode.node_id = ns
      ∧ ∀ en ∈ a, incomingOf edges g en.node_id = some en.incoming := by
  intro ns
  induction ns with
  | nil =>
    intro a h
    cases h
    exact ⟨rfl, by simp⟩
  | cons n rest ih =>
    intro a h
    rw [evalNodesOfLayer] at h
    cases hn : dictLookup g.nodes n with
    | none => rw [hn] at h; cases h
    | some nd =>
      cases hi : incomingOf edges g n with
      | none => rw [hn, hi] at h; cases h
      | some inc =>
        cases ht : evalNodesOfLayer edges g rest with
        | none => rw [hn, hi, ht] at h; cases h
        | some tl =>
          rw [hn, hi, ht] at h
          cases h
          obtain ⟨h1, h2⟩ := ih tl ht
          refine ⟨by simp [h1], ?_⟩
          intro en hen
          rcases List.mem_cons.mp hen with rfl | hen
          · exact hi
          · exact h2 en hen

theorem layerOf_closed {edges : List (Int × Int)} {required seen : Finset Int} {w : Int}
    (hw : w ∈ layerOf edges required seen) :
    ∀ p ∈ edges, p.2 = w → p.1 ∈ seen :=
  (of_decide_eq_true (List.mem_filter.mp hw).2).2

theorem layerOf_step {edges : List (Int × Int)} {required seen : Finset Int} {w : Int}
    (hw : w ∈ layerOf edges required seen) :
    ∃ p ∈ edges, p.1 ∈ seen ∧ p.2 = w := by
  have hc := (List.mem_filter.mp hw).1
  have hc2 := List.mem_dedup.mp hc
  obtain ⟨p, hp, hpw⟩ := List.mem_map.mp hc2
  have hpf := List.mem_filter.mp hp
  have hcond := of_decide_eq_true hpf.2
  exact ⟨p, hpf.1, hcond.1, hpw⟩

theorem evalOk_of_layer (edges : List (Int × Int)) (g : Genome)
    (seen required : Finset Int) :
    ∀ (ns : List Int) (avail : Finset Int), (∀ x ∈ seen, x ∈ avail) →
      (∀ n ∈ ns, n ∈ layerOf edges required seen) →
      ∀ a, evalNodesOfLayer edges g ns = some a → evalOk avail a := by
  intro ns
  induction ns with
  | nil =>
    intro avail _ _ a h
    cases h
    trivial
  | cons n rest ih =>
    intro avail hsub hns a h
    rw [evalNodesOfLayer] at h
    cases hn : dictLookup g.nodes n with
    | none => rw [hn] at h; cases h
    | some nd =>
      cases hi : incomingOf edges g n with
      | none => rw [hn, hi] at h; cases h
      | some inc =>
        cases ht : evalNodesOfLayer edges g rest with
        | none => rw [hn, hi, ht] at h; cases h
        | some tl =>
          rw [hn, hi, ht] at h
          cases h
          refine ⟨?_, ?_⟩
          · intro q hq
            have hsrc := incomingOf_sources g edges n inc hi q hq
            exact hsub q.1 (layerOf_closed (hns n (List.mem_cons_self _ _)) _ hsrc rfl)
          · exact ih (insert n avail) (fun x hx => Finset.mem_insert_of_mem (hsub x hx))
              (fun m hm => hns m (List.mem_cons_of_mem _ hm)) tl ht

theorem makeEvalNodes_evalOk (edges : List (Int × Int)) (g : Genome) :
    ∀ (fuel : Nat) (required seen avail : Finset Int) (ens : List EvalNode),
      (∀ x ∈ seen, x ∈ avail) →
      makeEvalNodes (makeLayersLoop edges required fuel seen) edges g = some ens →
      evalOk avail ens := by
  intro fuel
  induction fuel with
  | zero =>
    intro required seen avail ens _ h
    rw [makeLayersLoop, makeEvalNodes] at h
    cases h
    trivial
  | succ fuel ih =>
    intro required seen avail ens hsub h
    rw [makeLayersLoop] at h
    by_cases hl : layerOf edges required seen = []
    · rw [if_pos hl, makeEvalNodes] at h
      cases h
      trivial
    · rw [if_neg hl, makeEvalNodes] at h
      cases ha : evalNodesOfLayer edges g (layerOf edges required seen) with
      | none => rw [ha] at h; cases h
      | some a =>
        cases hb : makeEvalNodes (makeLayersLoop edges required fuel
            (seen ∪ (layerOf edges required seen).toFinset)) edges g with
        | none => rw [ha, hb] at h; cases h
        | some b =>
          rw [ha, hb] at h
          cases h
          obtain ⟨hids, _⟩ := evalNodesOfLayer_spec edges g _ a ha
          have hoka : evalOk avail a :=
            evalOk_of_layer edges g seen required _ avail hsub (fun n hn => hn) a ha
          refine evalOk_append a b avail hoka ?_
          refine ih required _ _ b ?_ hb
          intro x hx
          rcases Finset.mem_union.mp hx with hx | hx
          · exact Finset.mem_union_left _ (hsub x hx)
          · rw [List.mem_toFinset] at hx
            rw [← hids] at hx
            exact Finset.mem_union_right _ (List.mem_toFinset.mpr hx)

theorem makeLayersLoop_pred (edges : List (Int × Int)) (required : Finset Int)
    (P : Int → Prop) (hP : ∀ u v, P u → (u, v) ∈ edges → P v) :
    ∀ (fuel : Nat) (seen : Finset Int), (∀ s ∈ seen, P s) →
      ∀ l ∈ makeLayersLoop edges required fuel seen, ∀ w ∈ l, P w := by
  intro fuel
  induction fuel with
  | zero =>
    intro seen _ l hl
    rw [makeLayersLoop] at hl
    simp at hl
  | succ fuel ih =>
    intro seen hseen l hl w hw
    rw [makeLayersLoop] at hl
    by_cases he : layerOf edges required seen = []
    · rw [if_pos he] at hl
      simp at hl
    · rw [if_neg he] at hl
      have hlayer : ∀ v ∈ layerOf edges required seen, P v := by
        intro v hv
        obtain ⟨p, hp, hp1, hp2⟩ := layerOf_step hv
        have := hP p.1 p.2 (hseen p.1 hp1) (by rw [Prod.mk.eta]; exact hp)
        rw [hp2] at this
        exact this
      rcases List.mem_cons.mp hl with rfl | hl
      · exact hlayer w hw
      · refine ih _ ?_ l hl w hw
        intro x hx
        rcases Finset.mem_union.mp hx with hx | hx
        · exact hseen x hx
        · exact hlayer x (List.mem_toFinset.mp hx)

/-- Destructure a successful compile. -/
theorem make_network_parts {g : Genome} {net : NeuralNetwork}
    (h : make_network g = some net) :
    net.input_keys = g.input_keys ∧ net.output_keys = g.output_keys
    ∧ makeEvalNodes (makeLayers (requiredNodes (make_network_activeEdges g) g.input_keys
          g.output_keys) (make_network_activeEdges g) g.input_keys)
        (make_network_activeEdges g) g = some net.eval_nodes := by
  rw [make_network] at h
  cases hme : makeEvalNodes (makeLayers (requiredNodes (make_network_activeEdges g)
      g.input_keys g.output_keys) (make_network_activeEdges g) g.input_keys)
      (make_network_activeEdges g) g with
  | none => rw [hme] at h; cases h
  | some ens =>
    rw [hme] at h
    cases h
    exact ⟨rfl, rfl, rfl⟩

theorem makeEvalNodes_ids (edges : List (Int × Int)) (g : Genome) :
    ∀ (layers : List (List Int)) (ens : List EvalNode),
      makeEvalNodes layers edges g = some ens →
      ∀ en ∈ ens, ∃ l ∈ layers, en.node_id ∈ l := by
  intro layers
  induction layers with
  | nil =>
    intro ens h en hen
    cases h
    simp at hen
  | cons l rest ih =>
    intro ens h en hen
    rw [makeEvalNodes] at h
    cases ha : evalNodesOfLayer edges g l with
    | none => rw [ha] at h; cases h
    | some a =>
      cases hb : makeEvalNodes rest edges g with
      | none => rw [ha, hb] at h; cases h
      | some b =>
        rw [ha, hb] at h
        cases h
        rcases List.mem_append.mp hen with hen | hen
        · refine ⟨l, List.mem_cons_self _ _, ?_⟩
          have hids := (evalNodesOfLayer_spec edges g l a ha).1
          rw [← hids]
          exact List.mem_map_of_mem _ hen
        · obtain ⟨l2, hl2, hm⟩ := ih b hb en hen
          exact ⟨l2, List.mem_cons_of_mem _ hl2, hm⟩

/-- Every node that receives an evaluation record is reachable from an
input along active edges. -/
theorem make_network_reachable {g : Genome} {net : NeuralNetwork}
    (h : make_network g = some net) :
    ∀ en ∈ net.eval_nodes, ∃ i ∈ g.input_keys,
      Relation.ReflTransGen (edgeRel (make_network_activeEdges g)) i en.node_id := by
  intro en hen
  obtain ⟨_, _, hme⟩ := make_network_parts h
  obtain ⟨l, hl, hm⟩ := makeEvalNodes_ids _ g _ _ hme en hen
  refine makeLayersLoop_pred (make_network_activeEdges g)
    (requiredNodes (make_network_activeEdges g) g.input_keys g.output_keys)
    (fun w => ∃ i ∈ g.input_keys,
      Relation.ReflTransGen (edgeRel (make_network_activeEdges g)) i w)
    ?_ ((edgeEndpoints (make_network_activeEdges g)).card + 1) g.input_keys.toFinset
    ?_ l hl en.node_id hm
  · rintro u v ⟨i, hi, hpath⟩ huv
    exact ⟨i, hi, hpath.tail huv⟩
  · intro s hs
    exact ⟨s, List.mem_toFinset.mp hs, Relation.ReflTransGen.refl⟩

/-! ## Claim C6 -/

/-- Claim C6 (counterexample): `netW` (the compiled network of `gW`, one
input) accepts the two-element input `[5, 7]` without any error: `forward`
zips the inputs and silently ignores the extra value, returning an output
list — it does not fail fast. -/
theorem C6_counterexample :
    make_network gW = some netW
    ∧ ([(5 : ℝ), 7]).length ≠ netW.input_keys.length
    ∧ (netW.forward [(5 : ℝ), 7]).isSome = true := by
  refine ⟨by decide, by decide, rfl⟩

/-- Claim C6 (amended): `forward` never raises on an input-length mismatch:
for every compiled network and **every** input list `x`, it returns an
output list of length `|output_keys|`; inputs beyond `|input_keys|` are
ignored (`zip` truncation) and missing inputs keep the default `0.0`. -/
theorem C6_amended (g : Genome) (net : NeuralNetwork) (h : make_network g = some net)
    (x : List ℝ) :
    (∃ ys, net.forward x = some ys ∧ ys.length = net.output_keys.length)
    ∧ net.forward x = net.forward (x.take net.input_keys.length) := by
  obtain ⟨hin, hout, hme⟩ := make_network_parts h
  constructor
  · have hok : evalOk (g.input_keys.toFinset ∪ g.output_keys.toFinset) net.eval_nodes :=
      makeEvalNodes_evalOk (make_network_activeEdges g) g
        ((edgeEndpoints (make_network_activeEdges g)).card + 1)
        (requiredNodes (make_network_activeEdges g) g.input_keys g.output_keys)
        g.input_keys.toFinset (g.input_keys.toFinset ∪ g.output_keys.toFinset)
        net.eval_nodes (fun a ha => Finset.mem_union_left _ ha) hme
    have hkeys1 : ∀ a ∈ (g.input_keys.toFinset ∪ g.output_keys.toFinset),
        a ∈ dictKeys ((net.input_keys.zip x).foldl (fun d p => dictInsert d p.1 p.2)
          ((net.input_keys ++ net.output_keys).foldl (fun d j => dictInsert d j (0 : ℝ)) [])) := by
      intro a ha
      apply (mem_keys_foldl_insert Prod.fst Prod.snd _ _ a).mpr
      left
      apply (mem_keys_foldl_insert (fun j => j) (fun _ => (0 : ℝ)) _ _ a).mpr
      right
      rw [show List.map (fun j => j) (net.input_keys ++ net.output_keys)
          = net.input_keys ++ net.output_keys from List.map_id _, hin, hout, List.mem_append]
      rcases Finset.mem_union.mp ha with ha | ha
      · exact Or.inl (List.mem_toFinset.mp ha)
      · exact Or.inr (List.mem_toFinset.mp ha)
    obtain ⟨v2, hv2, hkeys2⟩ := forwardEval_some net.eval_nodes _ _ hok hkeys1
    obtain ⟨ys, hys, hlen⟩ := outputsOf_some v2 net.output_keys (by
      intro j hj
      apply hkeys2
      apply hkeys1
      rw [hout] at hj
      exact Finset.mem_union_right _ (List.mem_toFinset.mpr hj))
    refine ⟨ys, ?_, hlen⟩
    have hforward : net.forward x
        = (forwardEval net.eval_nodes
            ((net.input_keys.zip x).foldl (fun d p => dictInsert d p.1 p.2)
              ((net.input_keys ++ net.output_keys).foldl
                (fun d j => dictInsert d j (0 : ℝ)) []))).bind
          (fun values => outputsOf values net.output_keys) := rfl
    rw [hforward, hv2, Option.some_bind]
    exact hys
  · show (forwardEval net.eval_nodes
        ((net.input_keys.zip x).foldl (fun d p => dictInsert d p.1 p.2)
          ((net.input_keys ++ net.output_keys).foldl
            (fun d j => dictInsert d j (0 : ℝ)) []))).bind
        (fun values => outputsOf values net.output_keys)
      = (forwardEval net.eval_nodes
          ((net.input_keys.zip (x.take net.input_keys.length)).foldl
            (fun d p => dictInsert d p.1 p.2)
            ((net.input_keys ++ net.output_keys).foldl
              (fun d j => dictInsert d j (0 : ℝ)) []))).bind
        (fun values => outputsOf values net.output_keys)
    rw [← zip_eq_zip_take]

/-- Witness for the amended C6: `netW` on the too-long input `[5, 7]`. -/
theorem C6_amended_witness :
    (∃ ys, netW.forward [(5 : ℝ), 7] = some ys ∧ ys.length = netW.output_keys.length)
    ∧ netW.forward [(5 : ℝ), 7] = netW.forward ([(5 : ℝ), 7].take netW.input_keys.length) :=
  C6_amended gW netW (by decide) [5, 7]

/-! ## Claim C1 -/

/-- Claim C1 (counterexample): `pW` (1 input, 1 output, no edges) compiles
to a network whose output node 0 has no reachable predecessor; its node 0
has bias 0 and the default sigmoid activation, yet `forward` returns
`[0.0]`, not `[activation(bias)] = [sigmoid 0] = [1/2]`. -/
theorem C1_counterexample :
    make_network pW = some netE
    ∧ dictLookup pW.nodes 0 = some (mkNode 0 0)
    ∧ netE.forward [(3 : ℝ)] = some [0]
    ∧ actEval ActKind.sigmoid ((0 : ℚ) : ℝ) ≠ 0 := by
  refine ⟨by decide, by decide, rfl, ?_⟩
  have hs : actEval ActKind.sigmoid ((0 : ℚ) : ℝ) = 1 / 2 := by
    show sigmoidEval ((0 : ℚ) : ℝ) = 1 / 2
    rw [Rat.cast_zero]
    unfold sigmoidEval npClip
    rw [mul_zero, min_eq_right (by norm_num), max_eq_right (by norm_num), neg_zero,
      Real.exp_zero]
    norm_num
  rw [hs]
  norm_num

/-- Claim C1 (amended): in the forward pass of a compiled network, an output
node with no reachable predecessor (no active path from any input) retains
the default `0.0` at its position of the returned output list — it does
**not** produce `activation(bias)` — and every node that gets an evaluation
record at all is reachable from an input, so required-but-unreachable
non-output nodes are never assigned either. -/
theorem C1_amended (g : Genome) (net : NeuralNetwork) (h : make_network g = some net)
    (x : List ℝ) (k : Int) (hk : k ∈ g.output_keys) (hki : k ∉ g.input_keys)
    (hunreach : ¬ ∃ i ∈ g.input_keys,
      Relation.ReflTransGen (edgeRel (make_network_activeEdges g)) i k)
    (ys : List ℝ) (hys : net.forward x = some ys) :
    (∀ n, net.output_keys.get? n = some k → ys.get? n = some 0)
    ∧ ∀ en ∈ net.eval_nodes, ∃ i ∈ g.input_keys,
        Relation.ReflTransGen (edgeRel (make_network_activeEdges g)) i en.node_id := by
  obtain ⟨hin, hout, hme⟩ := make_network_parts h
  have hreach := make_network_reachable h
  refine ⟨?_, hreach⟩
  have hforward : net.forward x
      = (forwardEval net.eval_nodes
          ((net.input_keys.zip x).foldl (fun d p => dictInsert d p.1 p.2)
            ((net.input_keys ++ net.output_keys).foldl
              (fun d j => dictInsert d j (0 : ℝ)) []))).bind
        (fun values => outputsOf values net.output_keys) := rfl
  rw [hforward] at hys
  cases hfe : forwardEval net.eval_nodes
      ((net.input_keys.zip x).foldl (fun d p => dictInsert d p.1 p.2)
        ((net.input_keys ++ net.output_keys).foldl
          (fun d j => dictInsert d j (0 : ℝ)) [])) with
  | none => rw [hfe] at hys; cases hys
  | some v2 =>
    rw [hfe, Option.some_bind] at hys
    intro n hn
    have hget := outputsOf_get v2 net.output_keys ys hys n k hn
    have hids : ∀ en ∈ net.eval_nodes, en.node_id ≠ k := by
      intro en hen heq
      exact hunreach (heq ▸ hreach en hen)
    have huntouched := forwardEval_lookup_untouched net.eval_nodes _ v2 k hids hfe
    have hv1 : dictLookup ((net.input_keys.zip x).foldl (fun d p => dictInsert d p.1 p.2)
        ((net.input_keys ++ net.output_keys).foldl (fun d j => dictInsert d j (0 : ℝ)) [])) k
        = dictLookup ((net.input_keys ++ net.output_keys).foldl
            (fun d j => dictInsert d j (0 : ℝ)) []) k := by
      apply foldl_insert_lookup_not_mem
      intro p hp heq
      obtain ⟨a, b⟩ := p
      have hmem := (List.of_mem_zip hp).1
      rw [hin] at hmem
      exact hki (heq ▸ hmem)
    have hv0 : dictLookup ((net.input_keys ++ net.output_keys).foldl
        (fun d j => dictInsert d j (0 : ℝ)) []) k = some 0 := by
      apply foldl_insert_const_lookup
      left
      rw [List.mem_append, hout]
      exact Or.inr hk
    rw [hget, huntouched, hv1, hv0]

/-- Witness for the amended C1: `pW`'s network, unreachable output 0. -/
theorem C1_amended_witness :
    (∀ n, netE.output_keys.get? n = some 0 → ([(0 : ℝ)]).get? n = some 0)
    ∧ ∀ en ∈ netE.eval_nodes, ∃ i ∈ pW.input_keys,
        Relation.ReflTransGen (edgeRel (make_network_activeEdges pW)) i en.node_id :=
  C1_amended pW netE (by decide) [3] 0 (by decide) (by decide)
    (by
      rintro ⟨i, hi, hpath⟩
      rcases Relation.ReflTransGen.cases_head hpath with heq | ⟨c, hstep, _⟩
      · exact absurd (heq ▸ hi) (by decide)
      · have hE : make_network_activeEdges pW = ([] : List (Int × Int)) := by decide
        rw [hE] at hstep
        simp [edgeRel] at hstep)
    [0] rfl

/-! ## Claim C3 -/

/-- Claim C3: for every finite edge-key set `E` and candidate pair `(u,v)`,
`creates_cycle E u v` returns true if and only if `u = v` or there is a
directed path from `v` to `u` along the edges of `E` (callers pass every
current edge key, actives and inactives alike); in particular it returns
true whenever a path `v→…→u` exists among the current edges. -/
theorem C3_creates_cycle_iff_path (E : List (Int × Int)) (u v : Int) :
    creates_cycle E u v = true ↔ u = v ∨ Relation.ReflTransGen (edgeRel E) v u :=
  creates_cycle_iff E u v

/-! ## Claim C10 -/

/-- Claim C10: the activation registered under the name `cos` computes
`sin(x)` at every input; the `cos` and `sin` entries of `ACTIVATIONS`
denote the same mathematical function, and no entry of the set denotes the
real cosine. -/
theorem C10_cos_entry_is_sin :
    (∀ x : ℝ, actEval ActKind.cos x = Real.sin x)
    ∧ actEval ActKind.cos = actEval ActKind.sin
    ∧ ∀ a ∈ ACTIVATIONS, actEval a ≠ Real.cos := by
  refine ⟨fun x => rfl, rfl, ?_⟩
  intro a ha h
  have h0 := congrFun h 0
  rw [Real.cos_zero] at h0
  have hclip : npClip (2.5 * (0 : ℝ)) (-60) 60 = 0 := by
    unfold npClip
    rw [mul_zero, min_eq_right (by norm_num), max_eq_right (by norm_num)]
  fin_cases ha <;>
      simp only [actEval, sigmoidEval, tanhEval, reluEval, absoluteEval, sinEval, cosEval,
        stepEval, linearEval, hclip, neg_zero, Real.exp_zero, Real.tanh_zero, Real.sin_zero,
        abs_zero, max_self, lt_irrefl, if_false, zero_mul] at h0 <;>
    norm_num at h0

/-! ## Claim C2: the structural invariant of reachable genomes

Graph-theoretic groundwork first.  All acyclicity statements are about
`Relation.TransGen` over `edgeRel` of the **full** edge-key list; the
active subgraph is a sub-relation. -/

theorem transGen_union_split {R S : Int → Int → Prop} {x y : Int}
    (h : Relation.TransGen (fun a b => R a b ∨ S a b) x y) :
    Relation.TransGen R x y
    ∨ ∃ u v, Relation.ReflTransGen (fun a b => R a b ∨ S a b) x u ∧ S u v
        ∧ Relation.ReflTransGen (fun a b => R a b ∨ S a b) v y := by
  induction h with
  | single hstep =>
    rcases hstep with hR | hS
    · exact Or.inl (Relation.TransGen.single hR)
    · exact Or.inr ⟨x, _, Relation.ReflTransGen.refl, hS, Relation.ReflTransGen.refl⟩
  | @tail b d hxb hbd ih =>
    rcases hbd with hR | hS
    · rcases ih with hTR | ⟨u, v, h1, hSuv, h3⟩
      · exact Or.inl (hTR.tail hR)
      · exact Or.inr ⟨u, v, h1, hSuv, h3.tail (Or.inl hR)⟩
    · exact Or.inr ⟨b, d, hxb.to_reflTransGen, hS, Relation.ReflTransGen.refl⟩

/-- Gluing an edge set whose sources are all negative onto an acyclic edge
set cannot create a cycle when every edge of the union targets a
non-negative node: the glued edges can never be re-entered. -/
theorem acyclic_union {R S : Int → Int → Prop}
    (hR : ∀ a, ¬ Relation.TransGen R a a)
    (htgt : ∀ u v, R u v ∨ S u v → 0 ≤ v)
    (hsrc : ∀ u v, S u v → u < 0) :
    ∀ a, ¬ Relation.TransGen (fun a b => R a b ∨ S a b) a a := by
  intro a hcyc
  rcases transGen_union_split hcyc with hTR | ⟨u, v, h1, hS, h3⟩
  · exact hR a hTR
  · have hu : u < 0 := hsrc u v hS
    rcases Relation.ReflTransGen.cases_tail (h3.trans h1) with heq | ⟨w, _, hwu⟩
    · exact absurd (htgt u v (Or.inr hS)) (not_le.mpr (heq ▸ hu))
    · rcases hwu with hwu | hwu
      · exact absurd (htgt w u (Or.inl hwu)) (not_le.mpr hu)
      · exact absurd (htgt w u (Or.inr hwu)) (not_le.mpr hu)

theorem reflTransGen_insert_path {R : Int → Int → Prop} {a b x y : Int}
    (h : Relation.ReflTransGen (fun u v => R u v ∨ (u = a ∧ v = b)) x y) :
    Relation.ReflTransGen R x y ∨ Relation.ReflTransGen R x a := by
  induction h with
  | refl => exact Or.inl Relation.ReflTransGen.refl
  | @tail c d hxc hcd ih =>
    rcases ih with ih | ih
    · rcases hcd with hRstep | ⟨rfl, rfl⟩
      · exact Or.inl (ih.tail hRstep)
      · exact Or.inr ih
    · exact Or.inr ih

/-- Inserting the single edge `a → b` into an acyclic edge set stays
acyclic when there is no path `b ⇝ a` (the exact guard of
`_mutate_add_edge_` via `creates_cycle`). -/
theorem acyclic_insert {R : Int → Int → Prop} {a b : Int}
    (hR : ∀ x, ¬ Relation.TransGen R x x)
    (hnp : ¬ Relation.ReflTransGen R b a) :
    ∀ x, ¬ Relation.TransGen (fun u v => R u v ∨ (u = a ∧ v = b)) x x := by
  intro x hcyc
  rcases transGen_union_split (S := fun u v => u = a ∧ v = b) hcyc with hTR | ⟨u, v, h1, hS, h3⟩
  · exact hR x hTR
  · obtain ⟨rfl, rfl⟩ := hS
    rcases reflTransGen_insert_path (h3.trans h1) with hp | hp
    · exact hnp hp
    · exact hnp hp

theorem transGen_split_cases {R : Int → Int → Prop} {u v c : Int}
    (huv : R u v) (hcu : c ≠ u) (hcv : c ≠ v)
    (hsrc : ∀ w, ¬ R c w) (htgt : ∀ w, ¬ R w c) :
    ∀ {x y : Int},
      Relation.TransGen (fun a b => R a b ∨ (a = u ∧ b = c) ∨ (a = c ∧ b = v)) x y →
      (x ≠ c → y ≠ c → Relation.TransGen R x y)
      ∧ (x ≠ c → y = c → Relation.ReflTransGen R x u)
      ∧ (x = c → y ≠ c → Relation.ReflTransGen R v y)
      ∧ (x = c → y = c → Relation.ReflTransGen R v u) := by
  intro x y h
  induction h with
  | single hstep =>
    rcases hstep with hRs | ⟨hxu, hyc⟩ | ⟨hxc, hyv⟩
    · refine ⟨fun _ _ => Relation.TransGen.single hRs,
        fun _ hy => absurd (hy ▸ hRs) (htgt x),
        fun hx _ => absurd (hx ▸ hRs) (hsrc _),
        fun hx _ => absurd (hx ▸ hRs) (hsrc _)⟩
    · refine ⟨fun _ hy => absurd hyc hy,
        fun _ _ => by rw [hxu],
        fun hx _ => absurd (hx ▸ hxu) hcu,
        fun hx _ => absurd (hx ▸ hxu) hcu⟩
    · refine ⟨fun hx _ => absurd hxc hx,
        fun _ hy => absurd (hy ▸ hyv) hcv,
        fun _ _ => by rw [hyv],
        fun _ hy => absurd (hy ▸ hyv) hcv⟩
  | @tail b d hxb hbd ih =>
    rcases hbd with hRs | ⟨hbu, hdc⟩ | ⟨hbc, hdv⟩
    · have hb : b ≠ c := fun hb => hsrc d (hb ▸ hRs)
      refine ⟨fun hx hy => (ih.1 hx hb).tail hRs,
        fun _ hy => absurd (hy ▸ hRs) (htgt b),
        fun hx hy => (ih.2.2.1 hx hb).tail hRs,
        fun _ hy => absurd (hy ▸ hRs) (htgt b)⟩
    · have hb : b ≠ c := fun hb => hcu (hb ▸ hbu)
      refine ⟨fun _ hy => absurd hdc hy,
        fun hx _ => hbu ▸ (ih.1 hx hb).to_reflTransGen,
        fun _ hy => absurd hdc hy,
        fun hx _ => hbu ▸ ih.2.2.1 hx hb⟩
    · refine ⟨?_, fun _ hy => absurd (hy ▸ hdv) hcv, ?_, fun _ hy => absurd (hy ▸ hdv) hcv⟩
      · intro hx _
        rw [hdv]
        exact Relation.TransGen.tail' (ih.2.1 hx hbc) huv
      · intro hx _
        rw [hdv]

/-- Splitting the acyclic edge `u → v` with a completely fresh middle node
`c` (the `_mutate_add_node_` topology change) preserves acyclicity. -/
theorem acyclic_split {R : Int → Int → Prop} {u v c : Int}
    (hR : ∀ x, ¬ Relation.TransGen R x x) (huv : R u v)
    (hcu : c ≠ u) (hcv : c ≠ v)
    (hsrc : ∀ w, ¬ R c w) (htgt : ∀ w, ¬ R w c) :
    ∀ x, ¬ Relation.TransGen (fun a b => R a b ∨ (a = u ∧ b = c) ∨ (a = c ∧ b = v)) x x := by
  intro x hcyc
  have h4 := transGen_split_cases huv hcu hcv hsrc htgt hcyc
  by_cases hx : x = c
  · exact hR v (Relation.TransGen.tail' (h4.2.2.2 hx hx) huv)
  · exact hR x (h4.1 hx hx)

theorem acyclic_of_sub {R S : Int → Int → Prop}
    (hsub : ∀ a b, S a b → R a b) (hR : ∀ x, ¬ Relation.TransGen R x x) :
    ∀ x, ¬ Relation.TransGen S x x :=
  fun x hcyc => hR x (hcyc.mono hsub)

theorem not_transGen_bot : ∀ a : Int, ¬ Relation.TransGen (fun _ _ => False) a a := by
  intro a h
  cases h with
  | single h => exact h
  | tail _ h => exact h

/-! ### Dictionary entry lemmas -/

theorem mem_dictInsert [DecidableEq κ] {d : List (κ × ν)} {k : κ} {v : ν} {q : κ × ν}
    (h : q ∈ dictInsert d k v) : q = (k, v) ∨ q ∈ d := by
  induction d with
  | nil =>
    rw [dictInsert] at h
    exact Or.inl (List.mem_singleton.mp h)
  | cons p rest ih =>
    obtain ⟨k1, v1⟩ := p
    rw [dictInsert] at h
    by_cases hk : k1 = k
    · rw [if_pos hk] at h
      rcases List.mem_cons.mp h with h | h
      · exact Or.inl h
      · exact Or.inr (List.mem_cons_of_mem _ h)
    · rw [if_neg hk] at h
      rcases List.mem_cons.mp h with h | h
      · exact Or.inr (h ▸ List.mem_cons_self _ _)
      · rcases ih h with h | h
        · exact Or.inl h
        · exact Or.inr (List.mem_cons_of_mem _ h)

theorem mem_dictDelete [DecidableEq κ] {d : List (κ × ν)} {k : κ} {q : κ × ν}
    (h : q ∈ dictDelete d k) : q ∈ d ∧ q.1 ≠ k := by
  rw [dictDelete] at h
  have hm := List.mem_filter.mp h
  refine ⟨hm.1, ?_⟩
  simpa using hm.2

theorem mem_dictKeys_dictDelete [DecidableEq κ] {d : List (κ × ν)} {k a : κ} :
    a ∈ dictKeys (dictDelete d k) ↔ a ∈ dictKeys d ∧ a ≠ k := by
  constructor
  · intro h
    obtain ⟨q, hq, rfl⟩ := List.mem_map.mp h
    have hm := mem_dictDelete hq
    exact ⟨List.mem_map_of_mem _ hm.1, hm.2⟩
  · rintro ⟨h, hne⟩
    obtain ⟨q, hq, rfl⟩ := List.mem_map.mp h
    exact List.mem_map_of_mem _ (List.mem_filter.mpr ⟨hq, by simpa using hne⟩)

theorem dictKeys_map_entry {f : κ × ν → ν} (d : List (κ × ν)) :
    dictKeys (d.map (fun p => (p.1, f p))) = dictKeys d := by
  rw [dictKeys, dictKeys, List.map_map]
  rfl

theorem mem_dictKeys_filter {d : List (κ × ν)} {pred : κ × ν → Bool} {a : κ}
    (h : a ∈ dictKeys (d.filter pred)) :
    ∃ q ∈ d, pred q = true ∧ (q : κ × ν).1 = a := by
  obtain ⟨q, hq, rfl⟩ := List.mem_map.mp h
  have hm := List.mem_filter.mp hq
  exact ⟨q, hm.1, hm.2, rfl⟩

/-! ### Initial-genome facts -/

theorem initGenome_nodes_keys (key : Int) (isz osz : Nat) (nb : Int → ℚ)
    (ew : Int × Int → ℚ) :
    dictKeys (initGenome key isz osz nb ew).nodes
      = (initGenome key isz osz nb ew).output_keys := by
  rw [dictKeys, initGenome, List.map_map]
  exact List.map_id _

theorem initGenome_input_neg (key : Int) (isz osz : Nat) (nb : Int → ℚ)
    (ew : Int × Int → ℚ) :
    ∀ i ∈ (initGenome key isz osz nb ew).input_keys, i < 0 := by
  intro i hi
  obtain ⟨j, hj, rfl⟩ := List.mem_map.mp hi
  have hnn : (0 : Int) ≤ (j : Int) := Int.ofNat_nonneg j
  linarith

theorem initGenome_output_nonneg (key : Int) (isz osz : Nat) (nb : Int → ℚ)
    (ew : Int × Int → ℚ) :
    ∀ k ∈ (initGenome key isz osz nb ew).output_keys, 0 ≤ k := by
  intro k hk
  obtain ⟨j, hj, rfl⟩ := List.mem_map.mp hk
  exact Int.ofNat_nonneg j

theorem initGenome_output_lt (key : Int) (isz osz : Nat) (nb : Int → ℚ)
    (ew : Int × Int → ℚ) {c : Int} (hosz : (osz : Int) ≤ c) :
    ∀ k ∈ (initGenome key isz osz nb ew).output_keys, k < c := by
  intro k hk
  obtain ⟨j, hj, rfl⟩ := List.mem_map.mp hk
  have hlt : (j : Int) < (osz : Int) := Int.ofNat_lt.mpr (List.mem_range.mp hj)
  linarith

theorem initGenome_uv (key : Int) (isz osz : Nat) (nb : Int → ℚ) (ew : Int × Int → ℚ) :
    ∀ q ∈ (initGenome key isz osz nb ew).edges, (q : (Int × Int) × Edge).2.uv = q.1 := by
  intro q hq
  obtain ⟨u, hu, hq2⟩ := List.mem_flatMap.mp hq
  obtain ⟨v, hv, rfl⟩ := List.mem_map.mp hq2
  rfl

theorem initGenome_acyclic (key : Int) (isz osz : Nat) (nb : Int → ℚ)
    (ew : Int × Int → ℚ) :
    ∀ a, ¬ Relation.TransGen (edgeRel (dictKeys (initGenome key isz osz nb ew).edges)) a a := by
  have hu := acyclic_union (R := fun _ _ => False)
    (S := edgeRel (dictKeys (initGenome key isz osz nb ew).edges)) not_transGen_bot
    (fun u v h => by
      rcases h with h | h
      · exact h.elim
      · have hm := (initGenome_edges_keys key isz osz nb ew (u, v)).mp h
        exact initGenome_output_nonneg key isz osz nb ew v hm.2)
    (fun u v h => by
      have hm := (initGenome_edges_keys key isz osz nb ew (u, v)).mp h
      exact initGenome_input_neg key isz osz nb ew u hm.1)
  exact acyclic_of_sub (fun a b h => Or.inr h) hu

/-! ### Crossover fold facts: `uv` consistency and counter monotonicity -/

theorem crossover_edges_fold_uv (other : Genome) (coins : Int × Int → Bool × Bool)
    (w0 : Int × Int → ℚ) :
    ∀ (l acc : List ((Int × Int) × Edge)),
      (∀ q ∈ acc, (q : (Int × Int) × Edge).2.uv = q.1) →
      (∀ q ∈ l, (q : (Int × Int) × Edge).2.uv = q.1) →
      ∀ q ∈ (l.foldl (fun ce p =>
        match dictLookup other.edges p.1 with
        | none => dictInsert ce p.1 p.2
        | some e2 => dictInsert ce p.1
            (crossoverEdge p.2 e2 (mkEdge p.1.1 p.1.2 (w0 p.1)) (coins p.1).1 (coins p.1).2))
        acc), (q : (Int × Int) × Edge).2.uv = q.1 := by
  intro l
  induction l with
  | nil => exact fun acc hacc _ => hacc
  | cons p r ih =>
    intro acc hacc hl
    rw [List.foldl_cons]
    have hp : p.2.uv = p.1 := hl p (List.mem_cons_self _ _)
    have hr : ∀ q ∈ r, (q : (Int × Int) × Edge).2.uv = q.1 :=
      fun q hq => hl q (List.mem_cons_of_mem _ hq)
    cases hm : dictLookup other.edges p.1 with
    | none =>
      simp only [hm]
      refine ih (dictInsert acc p.1 p.2) ?_ hr
      intro q hq
      rcases mem_dictInsert hq with rfl | hq
      · exact hp
      · exact hacc q hq
    | some e2 =>
      simp only [hm]
      refine ih _ ?_ hr
      intro q hq
      rcases mem_dictInsert hq with rfl | hq
      · show (p.1.1, p.1.2) = p.1
        exact Prod.mk.eta
      · exact hacc q hq

theorem crossover_edges_uv (g other child : Genome) (coins : Int × Int → Bool × Bool)
    (w0 : Int × Int → ℚ)
    (hchild : ∀ q ∈ child.edges, (q : (Int × Int) × Edge).2.uv = q.1)
    (hg : ∀ q ∈ g.edges, (q : (Int × Int) × Edge).2.uv = q.1) :
    ∀ q ∈ (Genome.crossover_edges g other child coins w0).edges,
      (q : (Int × Int) × Edge).2.uv = q.1 :=
  crossover_edges_fold_uv other coins w0 g.edges child.edges hchild hg

theorem crossover_nodes_fold_counter (other : Genome)
    (coins : Int → Bool × Bool × Bool × Bool) (b0 : Int → ℚ) :
    ∀ (l : List (Int × Node)) (st : List (Int × Node) × Int),
      st.2 ≤ ((l.foldl (fun (acc : List (Int × Node) × Int) p =>
        match dictLookup other.nodes p.1 with
        | none => (dictInsert acc.1 p.1 p.2, acc.2)
        | some n2 =>
          let cs := coins p.1
          (dictInsert acc.1 p.1
            (crossoverNode p.2 n2 (mkNode acc.2 (b0 acc.2)) cs.1 cs.2.1 cs.2.2.1 cs.2.2.2),
           acc.2 + 1)) st)).2 := by
  intro l
  induction l with
  | nil => exact fun st => le_refl _
  | cons p r ih =>
    intro st
    rw [List.foldl_cons]
    cases hm : dictLookup other.nodes p.1 with
    | none =>
      simp only [hm]
      exact ih _
    | some n2 =>
      simp only [hm]
      exact le_trans (show st.2 ≤ st.2 + 1 by linarith) (ih _)

theorem crossover_nodes_counter (g other child : Genome)
    (coins : Int → Bool × Bool × Bool × Bool) (b0 : Int → ℚ) (c0 : Int) :
    c0 ≤ (Genome.crossover_nodes g other child coins b0 c0).2 :=
  crossover_nodes_fold_counter other coins b0 g.nodes (child.nodes, c0)

/-! ### The invariant holds initially and is preserved by every operator -/

theorem initGenome_inv (key : Int) (isz osz : Nat) (nb : Int → ℚ) (ew : Int × Int → ℚ) :
    GenomeInv (initGenome key isz osz nb ew) := by
  refine ⟨?_, initGenome_input_neg key isz osz nb ew, ?_, ?_, ?_, ?_,
    initGenome_uv key isz osz nb ew, initGenome_acyclic key isz osz nb ew⟩
  · rw [initGenome_nodes_keys]
    exact initGenome_output_nonneg key isz osz nb ew
  · show (List.range isz).map (fun i : Nat => -(1 : Int) * ((i : Int) + 1))
      = (List.range (((List.range isz).map
          (fun i : Nat => -(1 : Int) * ((i : Int) + 1))).length)).map
        (fun i : Nat => -(1 : Int) * ((i : Int) + 1))
    rw [List.length_map, List.length_range]
  · show (List.range osz).map (fun i : Nat => (i : Int))
      = (List.range (((List.range osz).map (fun i : Nat => (i : Int))).length)).map
        (fun i : Nat => (i : Int))
    rw [List.length_map, List.length_range]
  · intro k hk
    rw [initGenome_nodes_keys]
    exact hk
  · intro p hp
    have hm := (initGenome_edges_keys key isz osz nb ew p).mp hp
    refine ⟨Or.inl hm.1, ?_, ?_⟩
    · rw [initGenome_nodes_keys]
      exact hm.2
    · have h1 := initGenome_input_neg key isz osz nb ew p.1 hm.1
      have h2 := initGenome_output_nonneg key isz osz nb ew p.2 hm.2
      exact ne_of_lt (lt_of_lt_of_le h1 h2)

theorem initGenome_keysBelow (key : Int) (isz osz : Nat) (nb : Int → ℚ)
    (ew : Int × Int → ℚ) {c : Int} (hosz : (osz : Int) ≤ c) :
    keysBelow (initGenome key isz osz nb ew) c := by
  have hc0 : (0 : Int) ≤ c := le_trans (Int.ofNat_nonneg osz) hosz
  constructor
  · rw [initGenome_nodes_keys]
    exact initGenome_output_lt key isz osz nb ew hosz
  · intro p hp
    have hm := (initGenome_edges_keys key isz osz nb ew p).mp hp
    exact ⟨lt_of_lt_of_le (initGenome_input_neg key isz osz nb ew p.1 hm.1) hc0,
      initGenome_output_lt key isz osz nb ew hosz p.2 hm.2⟩

theorem mutateDelNode_inv {g : Genome} {c : Int} (inv : GenomeInv g) (hkb : keysBelow g c)
    (delKey : Int) (hout : delKey ∉ g.output_keys) :
    GenomeInv (mutateDelNode g delKey) ∧ keysBelow (mutateDelNode g delKey) c := by
  have hek : ∀ a, a ∈ dictKeys (mutateDelNode g delKey).edges →
      a ∈ dictKeys g.edges ∧ a.1 ≠ delKey ∧ a.2 ≠ delKey := by
    intro a ha
    obtain ⟨q, hq, hpred, rfl⟩ := mem_dictKeys_filter ha
    simp only [decide_eq_true_eq] at hpred
    exact ⟨List.mem_map_of_mem _ hq, hpred⟩
  refine ⟨⟨?_, inv.inputsNeg, inv.inFormula, inv.outFormula, ?_, ?_, ?_, ?_⟩, ?_, ?_⟩
  · intro k hk
    exact inv.nodesNonneg k (mem_dictKeys_dictDelete.mp hk).1
  · intro k hk
    exact mem_dictKeys_dictDelete.mpr
      ⟨inv.outNodes k hk, fun hkd => hout (hkd ▸ hk)⟩
  · intro p hp
    obtain ⟨hpg, hp1, hp2⟩ := hek p hp
    obtain ⟨hsrc, htgt, hne⟩ := inv.edgeEnds p hpg
    refine ⟨?_, mem_dictKeys_dictDelete.mpr ⟨htgt, hp2⟩, hne⟩
    rcases hsrc with hsrc | hsrc
    · exact Or.inl hsrc
    · exact Or.inr (mem_dictKeys_dictDelete.mpr ⟨hsrc, hp1⟩)
  · intro q hq
    exact inv.uvConsistent q (List.mem_filter.mp hq).1
  · exact acyclic_of_sub (fun a b h => (hek (a, b) h).1) inv.acyclicKeys
  · intro k hk
    exact hkb.1 k (mem_dictKeys_dictDelete.mp hk).1
  · intro p hp
    exact hkb.2 p (hek p hp).1

theorem mutateDelEdge_inv {g : Genome} {c : Int} (inv : GenomeInv g) (hkb : keysBelow g c)
    (k : Int × Int) :
    GenomeInv (mutateDelEdge g k) ∧ keysBelow (mutateDelEdge g k) c := by
  refine ⟨⟨inv.nodesNonneg, inv.inputsNeg, inv.inFormula, inv.outFormula, inv.outNodes,
    ?_, ?_, ?_⟩, hkb.1, ?_⟩
  · intro p hp
    exact inv.edgeEnds p (mem_dictKeys_dictDelete.mp hp).1
  · intro q hq
    exact inv.uvConsistent q (mem_dictDelete hq).1
  · exact acyclic_of_sub (fun a b h => (mem_dictKeys_dictDelete.mp h).1) inv.acyclicKeys
  · intro p hp
    exact hkb.2 p (mem_dictKeys_dictDelete.mp hp).1

theorem mutateNodeProps_inv {g : Genome} {c : Int} (inv : GenomeInv g) (hkb : keysBelow g c)
    (newBias : Int → Node → ℚ) (newAct : Int → Node → ActKind) :
    GenomeInv (mutateNodeProps g newBias newAct)
    ∧ keysBelow (mutateNodeProps g newBias newAct) c := by
  have hkeys : dictKeys (mutateNodeProps g newBias newAct).nodes = dictKeys g.nodes :=
    dictKeys_map_entry g.nodes
  refine ⟨⟨?_, inv.inputsNeg, inv.inFormula, inv.outFormula, ?_, ?_, inv.uvConsistent,
    inv.acyclicKeys⟩, ?_, hkb.2⟩
  · rw [hkeys]
    exact inv.nodesNonneg
  · rw [hkeys]
    exact inv.outNodes
  · rw [hkeys]
    exact inv.edgeEnds
  · intro k hk
    rw [hkeys] at hk
    exact hkb.1 k hk

theorem mutateEdgeProps_inv {g : Genome} {c : Int} (inv : GenomeInv g) (hkb : keysBelow g c)
    (newW : Int × Int → Edge → ℚ) (newActive : Int × Int → Edge → Bool) :
    GenomeInv (mutateEdgeProps g newW newActive)
    ∧ keysBelow (mutateEdgeProps g newW newActive) c := by
  have hkeys : dictKeys (mutateEdgeProps g newW newActive).edges = dictKeys g.edges :=
    dictKeys_map_entry g.edges
  refine ⟨⟨inv.nodesNonneg, inv.inputsNeg, inv.inFormula, inv.outFormula, inv.outNodes,
    ?_, ?_, ?_⟩, hkb.1, ?_⟩
  · rw [hkeys]
    exact inv.edgeEnds
  · intro q hq
    obtain ⟨p, hp, rfl⟩ := List.mem_map.mp hq
    exact inv.uvConsistent p hp
  · rw [hkeys]
    exact inv.acyclicKeys
  · rw [hkeys]
    exact hkb.2

theorem mutateAddNode_inv {g : Genome} {c : Int} (inv : GenomeInv g) (hkb : keysBelow g c)
    (hc : 0 ≤ c) (k : Int × Int) (bias : ℚ) (hk : k ∈ dictKeys g.edges) :
    GenomeInv (mutateAddNode g k c bias) ∧ keysBelow (mutateAddNode g k c bias) (c + 1) := by
  obtain ⟨e, hlook⟩ := dictLookup_isSome_of_mem hk
  have huv : e.uv = k := inv.uvConsistent (k, e) (mem_of_dictLookup_eq_some hlook)
  have hg2 : mutateAddNode g k c bias =
      { g with nodes := dictInsert g.nodes c (mkNode c bias),
               edges := dictInsert (dictInsert (dictInsert g.edges k { e with active := false })
                 (e.uv.1, c) (mkEdge e.uv.1 c 1)) (c, e.uv.2) (mkEdge c e.uv.2 e.weight) } := by
    unfold mutateAddNode
    rw [hlook]
    rfl
  rw [huv] at hg2
  rw [hg2]
  have hk1c : k.1 < c := (hkb.2 k hk).1
  have hk2c : k.2 < c := (hkb.2 k hk).2
  have hkeysN : ∀ a : Int, a ∈ dictKeys (dictInsert g.nodes c (mkNode c bias))
      ↔ a ∈ dictKeys g.nodes ∨ a = c := fun a => mem_dictKeys_dictInsert g.nodes c _ a
  have hkeysE : ∀ p : Int × Int,
      p ∈ dictKeys (dictInsert (dictInsert (dictInsert g.edges k
        { e with uv := k, active := false })
        (k.1, c) (mkEdge k.1 c 1)) (c, k.2) (mkEdge c k.2 e.weight))
      ↔ p ∈ dictKeys g.edges ∨ p = (k.1, c) ∨ p = (c, k.2) := by
    intro p
    rw [mem_dictKeys_dictInsert, mem_dictKeys_dictInsert, mem_dictKeys_dictInsert]
    constructor
    · rintro (((h | rfl) | h) | h)
      · exact Or.inl h
      · exact Or.inl hk
      · exact Or.inr (Or.inl h)
      · exact Or.inr (Or.inr h)
    · rintro (h | h | h)
      · exact Or.inl (Or.inl (Or.inl h))
      · exact Or.inl (Or.inr h)
      · exact Or.inr h
  obtain ⟨hks, hkt, hkne⟩ := inv.edgeEnds k hk
  refine ⟨⟨?_, inv.inputsNeg, inv.inFormula, inv.outFormula, ?_, ?_, ?_, ?_⟩, ?_, ?_⟩
  · intro a ha
    rcases (hkeysN a).mp ha with h | rfl
    · exact inv.nodesNonneg a h
    · exact hc
  · intro a ha
    exact (hkeysN a).mpr (Or.inl (inv.outNodes a ha))
  · intro p hp
    rcases (hkeysE p).mp hp with h | rfl | rfl
    · obtain ⟨hs, ht, hne⟩ := inv.edgeEnds p h
      refine ⟨?_, (hkeysN p.2).mpr (Or.inl ht), hne⟩
      rcases hs with hs | hs
      · exact Or.inl hs
      · exact Or.inr ((hkeysN p.1).mpr (Or.inl hs))
    · refine ⟨?_, (hkeysN c).mpr (Or.inr rfl), ne_of_lt hk1c⟩
      rcases hks with hs | hs
      · exact Or.inl hs
      · exact Or.inr ((hkeysN k.1).mpr (Or.inl hs))
    · exact ⟨Or.inr ((hkeysN c).mpr (Or.inr rfl)),
        (hkeysN k.2).mpr (Or.inl hkt), ne_of_gt hk2c⟩
  · intro q hq
    rcases mem_dictInsert hq with rfl | hq
    · rfl
    · rcases mem_dictInsert hq with rfl | hq
      · rfl
      · rcases mem_dictInsert hq with rfl | hq
        · rfl
        · exact inv.uvConsistent q hq
  · have hsplit := acyclic_split (c := c) inv.acyclicKeys
      (by show (k.1, k.2) ∈ dictKeys g.edges
          rw [Prod.mk.eta]
          exact hk)
      (ne_of_gt hk1c) (ne_of_gt hk2c)
      (fun w hw => lt_irrefl c (hkb.2 (c, w) hw).1)
      (fun w hw => lt_irrefl c (hkb.2 (w, c) hw).2)
    refine acyclic_of_sub ?_ hsplit
    intro a b h
    rcases (hkeysE (a, b)).mp h with h | h | h
    · exact Or.inl h
    · exact Or.inr (Or.inl (Prod.ext_iff.mp h))
    · exact Or.inr (Or.inr (Prod.ext_iff.mp h))
  · intro a ha
    rcases (hkeysN a).mp ha with h | rfl
    · exact lt_trans (hkb.1 a h) (lt_add_one c)
    · exact lt_add_one _
  · intro p hp
    rcases (hkeysE p).mp hp with h | rfl | rfl
    · exact ⟨lt_trans (hkb.2 p h).1 (lt_add_one c), lt_trans (hkb.2 p h).2 (lt_add_one c)⟩
    · exact ⟨lt_trans hk1c (lt_add_one c), lt_add_one c⟩
    · exact ⟨lt_add_one c, lt_trans hk2c (lt_add_one c)⟩

theorem mutateAddEdge_inv {g : Genome} {c : Int} (inv : GenomeInv g) (hkb : keysBelow g c)
    (hc : 0 ≤ c) (inNode outNode : Int) (w : ℚ)
    (hout : outNode ∈ dictKeys g.nodes)
    (hin : inNode ∈ dictKeys g.nodes ++ g.input_keys) :
    GenomeInv (mutateAddEdge g inNode outNode w)
    ∧ keysBelow (mutateAddEdge g inNode outNode w) c := by
  have hinc : inNode < c := by
    rcases List.mem_append.mp hin with h | h
    · exact hkb.1 inNode h
    · exact lt_of_lt_of_le (inv.inputsNeg inNode h) hc
  by_cases hstop : (decide (dictMem g.edges (inNode, outNode))
      || (decide (inNode ∈ g.output_keys) && decide (outNode ∈ g.output_keys))
      || creates_cycle (dictKeys g.edges) inNode outNode) = true
  · have hEq : mutateAddEdge g inNode outNode w = g := by
      unfold mutateAddEdge
      rw [if_pos hstop]
    rw [hEq]
    exact ⟨inv, hkb⟩
  · have hEq : mutateAddEdge g inNode outNode w =
        { g with edges := dictInsert g.edges (inNode, outNode) (mkEdge inNode outNode w) } := by
      unfold mutateAddEdge
      rw [if_neg hstop]
    rw [Bool.not_eq_true] at hstop
    have hcyc : creates_cycle (dictKeys g.edges) inNode outNode = false :=
      (Bool.or_eq_false_iff.mp hstop).2
    have hncyc : ¬ (inNode = outNode
        ∨ Relation.ReflTransGen (edgeRel (dictKeys g.edges)) outNode inNode) := by
      intro hcon
      have hct := (creates_cycle_iff (dictKeys g.edges) inNode outNode).mpr hcon
      rw [hcyc] at hct
      cases hct
    push_neg at hncyc
    rw [hEq]
    refine ⟨⟨inv.nodesNonneg, inv.inputsNeg, inv.inFormula, inv.outFormula, inv.outNodes,
      ?_, ?_, ?_⟩, hkb.1, ?_⟩
    · intro p hp
      rcases (mem_dictKeys_dictInsert g.edges (inNode, outNode) _ p).mp hp with h | rfl
      · exact inv.edgeEnds p h
      · refine ⟨?_, hout, hncyc.1⟩
        rcases List.mem_append.mp hin with h | h
        · exact Or.inr h
        · exact Or.inl h
    · intro q hq
      rcases mem_dictInsert hq with rfl | hq
      · rfl
      · exact inv.uvConsistent q hq
    · refine acyclic_of_sub ?_ (acyclic_insert inv.acyclicKeys hncyc.2)
      intro a b h
      rcases (mem_dictKeys_dictInsert g.edges (inNode, outNode) _ (a, b)).mp h with h | h
      · exact Or.inl h
      · exact Or.inr (Prod.ext_iff.mp h)
    · intro p hp
      rcases (mem_dictKeys_dictInsert g.edges (inNode, outNode) _ p).mp hp with h | rfl
      · exact hkb.2 p h
      · exact ⟨hinc, hkb.1 outNode hout⟩

/-- Invariant for the crossover child: the child starts as a fresh
fully-connected genome whose input/output key lists coincide with the
first parent's (both are the arity formulas), edge crossover adds the
first parent's edge keys, node crossover adds the first parent's node
keys.  The union stays acyclic because every initial edge runs from a
negative input key to a non-negative node key. -/
theorem crossover_child_inv (q1 q2 : Genome) {c : Int}
    (invq : GenomeInv q1) (hkbq : keysBelow q1 c) (hc : 0 ≤ c)
    (gid : Int) (isz osz : Nat) (nb : Int → ℚ) (ew : Int × Int → ℚ)
    (ecoins : Int × Int → Bool × Bool) (w0 : Int × Int → ℚ)
    (ncoins : Int → Bool × Bool × Bool × Bool) (b0 : Int → ℚ)
    (hinq : (initGenome gid isz osz nb ew).input_keys = q1.input_keys)
    (houtq : (initGenome gid isz osz nb ew).output_keys = q1.output_keys) :
    GenomeInv (Genome.crossover_nodes q1 q2
        (Genome.crossover_edges q1 q2 (initGenome gid isz osz nb ew) ecoins w0)
        ncoins b0 c).1
    ∧ keysBelow (Genome.crossover_nodes q1 q2
        (Genome.crossover_edges q1 q2 (initGenome gid isz osz nb ew) ecoins w0)
        ncoins b0 c).1
      (Genome.crossover_nodes q1 q2
        (Genome.crossover_edges q1 q2 (initGenome gid isz osz nb ew) ecoins w0)
        ncoins b0 c).2
    ∧ c ≤ (Genome.crossover_nodes q1 q2
        (Genome.crossover_edges q1 q2 (initGenome gid isz osz nb ew) ecoins w0)
        ncoins b0 c).2 := by
  have inv0 := initGenome_inv gid isz osz nb ew
  have hresN : ∀ a : Int, a ∈ dictKeys (Genome.crossover_nodes q1 q2
      (Genome.crossover_edges q1 q2 (initGenome gid isz osz nb ew) ecoins w0)
      ncoins b0 c).1.nodes
      ↔ a ∈ dictKeys (initGenome gid isz osz nb ew).nodes ∨ a ∈ dictKeys q1.nodes :=
    fun a => crossover_nodes_keys q1 q2
      (Genome.crossover_edges q1 q2 (initGenome gid isz osz nb ew) ecoins w0) ncoins b0 c a
  have hkeysE : ∀ p : Int × Int, p ∈ dictKeys (Genome.crossover_nodes q1 q2
      (Genome.crossover_edges q1 q2 (initGenome gid isz osz nb ew) ecoins w0)
      ncoins b0 c).1.edges
      ↔ p ∈ dictKeys (initGenome gid isz osz nb ew).edges ∨ p ∈ dictKeys q1.edges :=
    fun p => crossover_edges_keys q1 q2 (initGenome gid isz osz nb ew) ecoins w0 p
  have hcc : c ≤ (Genome.crossover_nodes q1 q2
      (Genome.crossover_edges q1 q2 (initGenome gid isz osz nb ew) ecoins w0)
      ncoins b0 c).2 :=
    crossover_nodes_counter q1 q2
      (Genome.crossover_edges q1 q2 (initGenome gid isz osz nb ew) ecoins w0) ncoins b0 c
  have hg0N : ∀ a : Int, a ∈ dictKeys (initGenome gid isz osz nb ew).nodes → a < c := by
    intro a ha
    rw [initGenome_nodes_keys, houtq] at ha
    exact hkbq.1 a (invq.outNodes a ha)
  refine ⟨⟨?_, inv0.inputsNeg, inv0.inFormula, inv0.outFormula, ?_, ?_, ?_, ?_⟩,
    ⟨?_, ?_⟩, hcc⟩
  · intro a ha
    rcases (hresN a).mp ha with h | h
    · exact inv0.nodesNonneg a h
    · exact invq.nodesNonneg a h
  · intro a ha
    exact (hresN a).mpr (Or.inl (inv0.outNodes a ha))
  · intro p hp
    rcases (hkeysE p).mp hp with h | h
    · obtain ⟨hs, ht, hne⟩ := inv0.edgeEnds p h
      refine ⟨?_, (hresN p.2).mpr (Or.inl ht), hne⟩
      rcases hs with hs | hs
      · exact Or.inl hs
      · exact Or.inr ((hresN p.1).mpr (Or.inl hs))
    · obtain ⟨hs, ht, hne⟩ := invq.edgeEnds p h
      refine ⟨?_, (hresN p.2).mpr (Or.inr ht), hne⟩
      rcases hs with hs | hs
      · exact Or.inl (hinq ▸ hs)
      · exact Or.inr ((hresN p.1).mpr (Or.inr hs))
  · exact crossover_edges_uv q1 q2 (initGenome gid isz osz nb ew) ecoins w0
      (initGenome_uv gid isz osz nb ew) invq.uvConsistent
  · have hu := acyclic_union (R := edgeRel (dictKeys q1.edges))
      (S := edgeRel (dictKeys (initGenome gid isz osz nb ew).edges)) invq.acyclicKeys
      (fun u v hm => by
        rcases hm with hm | hm
        · exact invq.nodesNonneg v (invq.edgeEnds (u, v) hm).2.1
        · exact initGenome_output_nonneg gid isz osz nb ew v
            ((initGenome_edges_keys gid isz osz nb ew (u, v)).mp hm).2)
      (fun u v hm => initGenome_input_neg gid isz osz nb ew u
        ((initGenome_edges_keys gid isz osz nb ew (u, v)).mp hm).1)
    refine acyclic_of_sub ?_ hu
    intro a b hm
    rcases (hkeysE (a, b)).mp hm with hm | hm
    · exact Or.inr hm
    · exact Or.inl hm
  · intro a ha
    rcases (hresN a).mp ha with h | h
    · exact lt_of_lt_of_le (hg0N a h) hcc
    · exact lt_of_lt_of_le (hkbq.1 a h) hcc
  · intro p hp
    rcases (hkeysE p).mp hp with h | h
    · have hm := (initGenome_edges_keys gid isz osz nb ew p).mp h
      refine ⟨lt_of_lt_of_le (lt_of_lt_of_le
        (initGenome_input_neg gid isz osz nb ew p.1 hm.1) hc) hcc, ?_⟩
      have h2 := hm.2
      rw [houtq] at h2
      exact lt_of_lt_of_le (hkbq.1 p.2 (invq.outNodes p.2 h2)) hcc
    · exact ⟨lt_of_lt_of_le (hkbq.2 p h).1 hcc, lt_of_lt_of_le (hkbq.2 p h).2 hcc⟩

theorem newChildCrossover_inv {p1 p2 : Genome} {c : Int}
    (inv1 : GenomeInv p1) (inv2 : GenomeInv p2)
    (hkb1 : keysBelow p1 c) (hkb2 : keysBelow p2 c) (hc : 0 ≤ c)
    (hin : p1.input_keys = p2.input_keys) (hout : p1.output_keys = p2.output_keys)
    (f1 f2 : ℚ) (gid : Int) (nodeBias : Int → ℚ) (edgeWeight : Int × Int → ℚ)
    (ecoins : Int × Int → Bool × Bool) (w0 : Int × Int → ℚ)
    (ncoins : Int → Bool × Bool × Bool × Bool) (b0 : Int → ℚ) :
    GenomeInv (newChildCrossover p1 p2 f1 f2 gid nodeBias edgeWeight ecoins w0 ncoins b0 c).1
    ∧ keysBelow (newChildCrossover p1 p2 f1 f2 gid nodeBias edgeWeight ecoins w0 ncoins b0 c).1
        (newChildCrossover p1 p2 f1 f2 gid nodeBias edgeWeight ecoins w0 ncoins b0 c).2
    ∧ c ≤ (newChildCrossover p1 p2 f1 f2 gid nodeBias edgeWeight ecoins w0 ncoins b0 c).2 := by
  by_cases h12 : f1 < f2
  · have hEq : newChildCrossover p1 p2 f1 f2 gid nodeBias edgeWeight ecoins w0 ncoins b0 c
        = Genome.crossover_nodes p2 p1
          (Genome.crossover_edges p2 p1
            (initGenome gid p1.input_keys.length p1.output_keys.length nodeBias edgeWeight)
            ecoins w0) ncoins b0 c := by
      unfold newChildCrossover
      rw [if_pos h12]
    rw [hEq]
    refine crossover_child_inv p2 p1 inv2 hkb2 hc gid _ _ nodeBias edgeWeight
      ecoins w0 ncoins b0 ?_ ?_
    · show (List.range p1.input_keys.length).map (fun i : Nat => -(1 : Int) * ((i : Int) + 1))
        = p2.input_keys
      rw [hin]
      exact inv2.inFormula.symm
    · show (List.range p1.output_keys.length).map (fun i : Nat => (i : Int)) = p2.output_keys
      rw [hout]
      exact inv2.outFormula.symm
  · have hEq : newChildCrossover p1 p2 f1 f2 gid nodeBias edgeWeight ecoins w0 ncoins b0 c
        = Genome.crossover_nodes p1 p2
          (Genome.crossover_edges p1 p2
            (initGenome gid p1.input_keys.length p1.output_keys.length nodeBias edgeWeight)
            ecoins w0) ncoins b0 c := by
      unfold newChildCrossover
      rw [if_neg h12]
    rw [hEq]
    refine crossover_child_inv p1 p2 inv1 hkb1 hc gid _ _ nodeBias edgeWeight
      ecoins w0 ncoins b0 ?_ ?_
    · show (List.range p1.input_keys.length).map (fun i : Nat => -(1 : Int) * ((i : Int) + 1))
        = p1.input_keys
      exact inv1.inFormula.symm
    · show (List.range p1.output_keys.length).map (fun i : Nat => (i : Int)) = p1.output_keys
      exact inv1.outFormula.symm

/-- The invariant holds of every reachable genome, together with the
counter facts the induction needs: the counter is at least
`MIN_NODE_COUNT` and strictly above every key mentioned in the genome. -/
theorem reach_inv {c : Int} {g : Genome} (h : Reach c g) :
    MIN_NODE_COUNT ≤ c ∧ keysBelow g c ∧ GenomeInv g := by
  induction h with
  | init key isz osz cc nb ew houtsz hcc =>
    exact ⟨hcc, initGenome_keysBelow key isz osz nb ew (le_trans houtsz hcc),
      initGenome_inv key isz osz nb ew⟩
  | advance c2 hr hcc ih =>
    refine ⟨le_trans ih.1 hcc, ⟨?_, ?_⟩, ih.2.2⟩
    · exact fun k hk => lt_of_lt_of_le (ih.2.1.1 k hk) hcc
    · exact fun p hp => ⟨lt_of_lt_of_le (ih.2.1.2 p hp).1 hcc,
        lt_of_lt_of_le (ih.2.1.2 p hp).2 hcc⟩
  | addNode k bias hr hk ih =>
    have h0 := le_trans (show (0 : Int) ≤ MIN_NODE_COUNT by norm_num [MIN_NODE_COUNT]) ih.1
    obtain ⟨hinv, hkb⟩ := mutateAddNode_inv ih.2.2 ih.2.1 h0 k bias hk
    exact ⟨le_trans ih.1 (by linarith), hkb, hinv⟩
  | delNode dk hr hmem houtk ih =>
    obtain ⟨hinv, hkb⟩ := mutateDelNode_inv ih.2.2 ih.2.1 dk houtk
    exact ⟨ih.1, hkb, hinv⟩
  | addEdge inN outN w hr houtk hink ih =>
    have h0 := le_trans (show (0 : Int) ≤ MIN_NODE_COUNT by norm_num [MIN_NODE_COUNT]) ih.1
    obtain ⟨hinv, hkb⟩ := mutateAddEdge_inv ih.2.2 ih.2.1 h0 inN outN w houtk hink
    exact ⟨ih.1, hkb, hinv⟩
  | delEdge k hr hk ih =>
    obtain ⟨hinv, hkb⟩ := mutateDelEdge_inv ih.2.2 ih.2.1 k
    exact ⟨ih.1, hkb, hinv⟩
  | nodeProps nb na hr ih =>
    obtain ⟨hinv, hkb⟩ := mutateNodeProps_inv ih.2.2 ih.2.1 nb na
    exact ⟨ih.1, hkb, hinv⟩
  | edgeProps nw na hr ih =>
    obtain ⟨hinv, hkb⟩ := mutateEdgeProps_inv ih.2.2 ih.2.1 nw na
    exact ⟨ih.1, hkb, hinv⟩
  | crossover f1 f2 gid nb ew ec w0 nc b0 h1 h2 hin hout ih1 ih2 =>
    have h0 := le_trans (show (0 : Int) ≤ MIN_NODE_COUNT by norm_num [MIN_NODE_COUNT]) ih1.1
    obtain ⟨hinv, hkb, hcc⟩ := newChildCrossover_inv ih1.2.2 ih2.2.2 ih1.2.1 ih2.2.1 h0
      hin hout f1 f2 gid nb ew ec w0 nc b0
    exact ⟨le_trans ih1.1 hcc, hkb, hinv⟩

/-- Claim C2: every genome reachable by any sequence of the public
operations (initialisation, the six mutation operators, edge crossover and
node crossover as performed by `new_child`) satisfies: every edge key
`(u, v)` has `u` an input key or a node key, `v` a node key, and `u ≠ v`;
and the subgraph of active edges contains no directed cycle. -/
theorem C2_edge_invariant {c : Int} {g : Genome} (h : Reach c g) :
    (∀ p ∈ dictKeys g.edges,
        (p.1 ∈ g.input_keys ∨ p.1 ∈ dictKeys g.nodes)
        ∧ p.2 ∈ dictKeys g.nodes ∧ p.1 ≠ p.2)
    ∧ ∀ a, ¬ Relation.TransGen
        (edgeRel (dictKeys (g.edges.filter (fun q => q.2.active)))) a a := by
  obtain ⟨-, -, inv⟩ := reach_inv h
  refine ⟨inv.edgeEnds, acyclic_of_sub ?_ inv.acyclicKeys⟩
  intro a b hab
  obtain ⟨q, hq, hpred, hfst⟩ := mem_dictKeys_filter hab
  show (a, b) ∈ dictKeys g.edges
  rw [← hfst]
  exact List.mem_map_of_mem _ hq

/-- Witness for C2: the initial 1-input/1-output genome `gW`, reached at
node counter 10. -/
theorem C2_edge_invariant_witness :
    (∀ p ∈ dictKeys gW.edges,
        (p.1 ∈ gW.input_keys ∨ p.1 ∈ dictKeys gW.nodes)
        ∧ p.2 ∈ dictKeys gW.nodes ∧ p.1 ≠ p.2)
    ∧ ∀ a, ¬ Relation.TransGen
        (edgeRel (dictKeys (gW.edges.filter (fun q => q.2.active)))) a a :=
  C2_edge_invariant
    (Reach.init 1 1 1 10 (fun _ => 0) (fun _ => 0) (by decide) (by decide))

/-! ## Claim C7: the partition invariants of `Population.partition` -/

theorem foldl_min_mem {α : Type} :
    ∀ (rest : List (ℚ × α)) (c : ℚ × α),
      rest.foldl (fun best x => if x.1 < best.1 then x else best) c ∈ c :: rest := by
  intro rest
  induction rest with
  | nil => exact fun c => List.mem_singleton.mpr rfl
  | cons x r ih =>
    intro c
    rw [List.foldl_cons]
    rcases List.mem_cons.mp (ih (if x.1 < c.1 then x else c)) with h | h
    · rw [h]
      by_cases hc : x.1 < c.1
      · rw [if_pos hc]
        exact List.mem_cons_of_mem _ (List.mem_cons_self _ _)
      · rw [if_neg hc]
        exact List.mem_cons_self _ _
    · exact List.mem_cons_of_mem _ (List.mem_cons_of_mem _ h)

theorem pyMinBy_mem {α : Type} {l : List (ℚ × α)} {x : ℚ × α}
    (h : pyMinBy l = some x) : x ∈ l := by
  cases l with
  | nil => cases h
  | cons c rest =>
    rw [pyMinBy] at h
    rw [← Option.some_inj.mp h]
    exact foldl_min_mem rest c

theorem pyMinBy_some {α : Type} {l : List (ℚ × α)} (hne : l ≠ []) :
    ∃ x, pyMinBy l = some x := by
  cases l with
  | nil => exact absurd rfl hne
  | cons c rest => exact ⟨_, rfl⟩

theorem candidatesOf_some (rep : Genome) (pop : List (Int × Genome)) :
    ∀ (gids : List Int), (∀ gid ∈ gids, gid ∈ dictKeys pop) →
      ∃ cands, candidatesOf rep pop gids = some cands
        ∧ cands.length = gids.length
        ∧ ∀ x ∈ cands, ∃ gid ∈ gids, dictLookup pop gid = some (x : ℚ × Genome).2 := by
  intro gids
  induction gids with
  | nil => exact fun _ => ⟨[], rfl, rfl, fun x hx => absurd hx (List.not_mem_nil x)⟩
  | cons gid rest ih =>
    intro hsub
    obtain ⟨g, hg⟩ := dictLookup_isSome_of_mem (hsub gid (List.mem_cons_self _ _))
    obtain ⟨tl, htl, hlen, hmem⟩ := ih (fun x hx => hsub x (List.mem_cons_of_mem _ hx))
    refine ⟨(Genome.dist rep g, g) :: tl, ?_, ?_, ?_⟩
    · simp only [candidatesOf, hg, htl]
    · simp [hlen]
    · intro x hx
      rcases List.mem_cons.mp hx with rfl | hx
      · exact ⟨gid, List.mem_cons_self _ _, hg⟩
      · obtain ⟨gid2, h1, h2⟩ := hmem x hx
        exact ⟨gid2, List.mem_cons_of_mem _ h1, h2⟩

theorem findRepresentative_some (p : Partition) (unpart : List Int)
    (pop : List (Int × Genome)) (hne : unpart ≠ [])
    (hsub : ∀ gid ∈ unpart, gid ∈ dictKeys pop) :
    ∃ rep, findRepresentative p unpart pop = some rep
      ∧ ∃ gid ∈ unpart, dictLookup pop gid = some rep := by
  obtain ⟨cands, hcands, hlen, hmem⟩ := candidatesOf_some p.representative pop unpart hsub
  have hcne : cands ≠ [] := by
    intro he
    rw [he] at hlen
    exact hne (List.length_eq_zero.mp hlen.symm)
  obtain ⟨x, hx⟩ := pyMinBy_some hcne
  refine ⟨x.2, ?_, hmem x (pyMinBy_mem hx)⟩
  rw [findRepresentative, hcands, Option.some_bind, hx]
  rfl

theorem closestRepresentative_mem {parts : List (Int × Partition)} {g : Genome} {pid : Int}
    (h : closestRepresentative parts g = some pid) : pid ∈ dictKeys parts := by
  rw [closestRepresentative] at h
  obtain ⟨x, hx, hxs⟩ := Option.map_eq_some'.mp h
  obtain ⟨q, hq, hqe⟩ := List.mem_map.mp (List.mem_filter.mp (pyMinBy_mem hx)).1
  rw [← hxs, ← hqe]
  exact List.mem_map_of_mem _ hq

theorem allMembers_append (l1 l2 : List (Int × Partition)) :
    allMembers (l1 ++ l2) = allMembers l1 ++ allMembers l2 := by
  rw [allMembers, allMembers, allMembers, List.flatMap_append]

theorem dictInsert_eq_append [DecidableEq κ] {d : List (κ × ν)} {k : κ} (v : ν)
    (h : k ∉ dictKeys d) : dictInsert d k v = d ++ [(k, v)] := by
  induction d with
  | nil => rfl
  | cons p rest ih =>
    obtain ⟨k1, v1⟩ := p
    simp only [dictKeys, List.map_cons, List.mem_cons, not_or] at h
    rw [dictInsert, if_neg (fun he => h.1 he.symm), ih h.2]
    rfl

theorem allMembers_dictInsert_append (acc : List (Int × Partition)) (pid : Int)
    (part : Partition) (gid : Int) (h : dictLookup acc pid = some part) :
    List.Perm
      (allMembers (dictInsert acc pid { part with members := part.members ++ [gid] }))
      (gid :: allMembers acc) := by
  induction acc with
  | nil => cases h
  | cons q rest ih =>
    obtain ⟨pid1, part1⟩ := q
    rw [dictLookup] at h
    by_cases hp : pid1 = pid
    · rw [if_pos hp] at h
      have hpp : part1 = part := Option.some_inj.mp h
      rw [dictInsert, if_pos hp, hpp]
      show List.Perm ((part.members ++ [gid]) ++ allMembers rest)
        (gid :: (part.members ++ allMembers rest))
      rw [List.append_assoc]
      exact List.perm_middle
    · rw [if_neg hp] at h
      rw [dictInsert, if_neg hp]
      show List.Perm (part1.members
          ++ allMembers (dictInsert rest pid { part with members := part.members ++ [gid] }))
        (gid :: (part1.members ++ allMembers rest))
      exact (List.Perm.append_left part1.members (ih h)).trans List.perm_middle

/-- Second partition loop: it always succeeds when the unpartitioned ids
are population keys and the threaded fresh-pid counter exceeds every
existing partition id; it distributes exactly the unpartitioned ids over
the member lists and only installs representatives drawn from the
population (or kept from the accumulator). -/
theorem partitionPhase2_spec (pop : List (Int × Genome)) :
    ∀ (unpart : List Int) (acc : List (Int × Partition)) (cnt : Int),
      (∀ gid ∈ unpart, gid ∈ dictKeys pop) →
      (∀ k ∈ dictKeys acc, k < cnt) →
      (∀ q ∈ acc, ∃ r ∈ pop,
        (r : Int × Genome).2 = (q : Int × Partition).2.representative) →
      ∃ res, partitionPhase2 pop unpart acc cnt = some res
        ∧ List.Perm (allMembers res) (allMembers acc ++ unpart)
        ∧ ∀ q ∈ res, ∃ r ∈ pop,
            (r : Int × Genome).2 = (q : Int × Partition).2.representative := by
  intro unpart
  induction unpart with
  | nil =>
    intro acc cnt hsub hlt hrep
    refine ⟨acc, rfl, ?_, hrep⟩
    rw [List.append_nil]
  | cons gid rest ih =>
    intro acc cnt hsub hlt hrep
    obtain ⟨g, hg⟩ := dictLookup_isSome_of_mem (hsub gid (List.mem_cons_self _ _))
    have hgmem : (gid, g) ∈ pop := mem_of_dictLookup_eq_some hg
    cases hcr : closestRepresentative acc g with
    | none =>
      have hnotin : cnt ∉ dictKeys acc := fun hmem => lt_irrefl cnt (hlt cnt hmem)
      obtain ⟨res, hres, hperm, hrep2⟩ := ih
        (dictInsert acc cnt { key := cnt, members := [gid], representative := g }) (cnt + 1)
        (fun x hx => hsub x (List.mem_cons_of_mem _ hx))
        (by
          intro k hk
          rcases (mem_dictKeys_dictInsert acc cnt _ k).mp hk with h | rfl
          · exact lt_trans (hlt k h) (lt_add_one cnt)
          · exact lt_add_one _)
        (by
          intro q hq
          rcases mem_dictInsert hq with rfl | hq
          · exact ⟨(gid, g), hgmem, rfl⟩
          · exact hrep q hq)
      refine ⟨res, ?_, ?_, hrep2⟩
      · simp only [partitionPhase2, hg, hcr]
        exact hres
      · have hAm : allMembers
            (dictInsert acc cnt { key := cnt, members := [gid], representative := g })
            = allMembers acc ++ [gid] := by
          rw [dictInsert_eq_append _ hnotin, allMembers_append]
          rfl
        rw [hAm, List.append_assoc] at hperm
        exact hperm
    | some pid =>
      have hpidmem : pid ∈ dictKeys acc := closestRepresentative_mem hcr
      obtain ⟨part, hpart⟩ := dictLookup_isSome_of_mem hpidmem
      obtain ⟨res, hres, hperm, hrep2⟩ := ih
        (dictInsert acc pid { part with members := part.members ++ [gid] }) cnt
        (fun x hx => hsub x (List.mem_cons_of_mem _ hx))
        (by
          intro k hk
          rcases (mem_dictKeys_dictInsert acc pid _ k).mp hk with h | rfl
          · exact hlt k h
          · exact hlt _ hpidmem)
        (by
          intro q hq
          rcases mem_dictInsert hq with rfl | hq
          · obtain ⟨r, hr, hrr⟩ := hrep (pid, part) (mem_of_dictLookup_eq_some hpart)
            exact ⟨r, hr, hrr⟩
          · exact hrep q hq)
      refine ⟨res, ?_, ?_, hrep2⟩
      · simp only [partitionPhase2, hg, hcr, hpart]
        exact hres
      · refine (hperm.trans
          ((allMembers_dictInsert_append acc pid part gid hpart).append_right rest)).trans ?_
        show List.Perm (gid :: (allMembers acc ++ rest)) (allMembers acc ++ gid :: rest)
        exact List.perm_middle.symm

/-- First partition loop: with at least as many unpartitioned genomes as
prior species, pairwise-distinct prior pids and well-keyed genomes, it
succeeds; each prior species receives exactly one member (removed from the
unpartitioned set), and every new representative is a population genome. -/
theorem partitionPhase1_spec (pop : List (Int × Genome))
    (hkeys : ∀ r ∈ pop, (r : Int × Genome).2.key = r.1) :
    ∀ (parts : List (Int × Partition)) (unpart : List Int) (acc : List (Int × Partition)),
      (∀ gid ∈ unpart, gid ∈ dictKeys pop) →
      parts.length ≤ unpart.length →
      (parts.map Prod.fst).Nodup →
      (∀ k ∈ dictKeys acc, k ∉ parts.map Prod.fst) →
      ∃ acc2 unpart2, partitionPhase1 pop parts unpart acc = some (acc2, unpart2)
        ∧ List.Perm (allMembers acc2 ++ unpart2) (allMembers acc ++ unpart)
        ∧ (∀ gid ∈ unpart2, gid ∈ unpart)
        ∧ (∀ k ∈ dictKeys acc2, k ∈ dictKeys acc ∨ k ∈ parts.map Prod.fst)
        ∧ ∀ q ∈ acc2, q ∈ acc ∨ ∃ r ∈ pop,
            (r : Int × Genome).2 = (q : Int × Partition).2.representative := by
  intro parts
  induction parts with
  | nil =>
    intro unpart acc hsub hlen hnd hdisj
    exact ⟨acc, unpart, rfl, List.Perm.refl _, fun g hg => hg,
      fun k hk => Or.inl hk, fun q hq => Or.inl hq⟩
  | cons q0 rest ih =>
    intro unpart acc hsub hlen hnd hdisj
    obtain ⟨pid, p⟩ := q0
    rw [List.map_cons] at hnd hdisj
    have hne : unpart ≠ [] :=
      List.length_pos.mp (lt_of_lt_of_le (Nat.succ_pos rest.length) hlen)
    obtain ⟨rep, hfind, gid, hgidmem, hlook⟩ := findRepresentative_some p unpart pop hne hsub
    have hrepkey : rep.key = gid := hkeys (gid, rep) (mem_of_dictLookup_eq_some hlook)
    have hpidnot : pid ∉ dictKeys acc := fun hmem => hdisj pid hmem (List.mem_cons_self _ _)
    have hkmem : rep.key ∈ unpart := hrepkey ▸ hgidmem
    obtain ⟨acc2, unpart2, hrun, hperm, hsub2, hkeys2, hrep2⟩ := ih (unpart.erase rep.key)
      (dictInsert acc pid { key := pid, members := [rep.key], representative := rep })
      (fun x hx => hsub x (List.mem_of_mem_erase hx))
      (by
        rw [List.length_erase_of_mem hkmem]
        rw [List.length_cons] at hlen
        omega)
      (List.nodup_cons.mp hnd).2
      (by
        intro k hk
        rcases (mem_dictKeys_dictInsert acc pid _ k).mp hk with h | rfl
        · exact fun hmem => hdisj k h (List.mem_cons_of_mem _ hmem)
        · exact (List.nodup_cons.mp hnd).1)
    refine ⟨acc2, unpart2, ?_, ?_, ?_, ?_, ?_⟩
    · simp only [partitionPhase1, hfind]
      exact hrun
    · have hAm : allMembers
          (dictInsert acc pid { key := pid, members := [rep.key], representative := rep })
          = allMembers acc ++ [rep.key] := by
        rw [dictInsert_eq_append _ hpidnot, allMembers_append]
        rfl
      rw [hAm, List.append_assoc] at hperm
      refine hperm.trans (List.Perm.append_left _ ?_)
      exact (List.perm_cons_erase hkmem).symm
    · exact fun x hx => List.mem_of_mem_erase (hsub2 x hx)
    · intro k hk
      rcases hkeys2 k hk with h | h
      · rcases (mem_dictKeys_dictInsert acc pid _ k).mp h with h | rfl
        · exact Or.inl h
        · exact Or.inr (List.mem_cons_self _ _)
      · exact Or.inr (List.mem_cons_of_mem _ h)
    · intro q hq
      rcases hrep2 q hq with h | h
      · rcases mem_dictInsert h with rfl | h
        · exact Or.inr ⟨(gid, rep), mem_of_dictLookup_eq_some hlook, rfl⟩
        · exact Or.inl h
      · exact Or.inr h

theorem populationPartition_spec (pop : List (Int × Genome)) (parts : List (Int × Partition))
    (unpart0 : List Int) (cnt0 : Int)
    (hkeys : ∀ r ∈ pop, (r : Int × Genome).2.key = r.1)
    (hsub : ∀ gid ∈ unpart0, gid ∈ dictKeys pop)
    (hnd : (parts.map Prod.fst).Nodup)
    (hbound : ∀ pid ∈ parts.map Prod.fst, pid < cnt0)
    (hlen : parts.length ≤ unpart0.length) :
    ∃ res, populationPartition pop parts unpart0 cnt0 = some res
      ∧ List.Perm (allMembers res) unpart0
      ∧ ∀ q ∈ res, ∃ r ∈ pop,
          (r : Int × Genome).2 = (q : Int × Partition).2.representative := by
  obtain ⟨acc2, unpart2, h1, hperm1, hsub2, hkeys2, hrep2⟩ :=
    partitionPhase1_spec pop hkeys parts unpart0 [] hsub hlen hnd
      (fun k hk => absurd hk (List.not_mem_nil k))
  obtain ⟨res, h2, hperm2, hrep3⟩ := partitionPhase2_spec pop unpart2 acc2 cnt0
    (fun gid hg => hsub gid (hsub2 gid hg))
    (fun k hk => by
      rcases hkeys2 k hk with h | h
      · exact absurd h (List.not_mem_nil k)
      · exact hbound k h)
    (fun q hq => by
      rcases hrep2 q hq with h | h
      · exact absurd h (List.not_mem_nil q)
      · exact h)
  refine ⟨res, ?_, ?_, hrep3⟩
  · rw [populationPartition, h1, Option.some_bind]
    exact h2
  · exact hperm2.trans hperm1

theorem members_count_one {gid : Int} :
    ∀ (parts : List (Int × Partition)), (allMembers parts).Nodup → gid ∈ allMembers parts →
      (parts.filter (fun q => decide (gid ∈ q.2.members))).length = 1 := by
  intro parts
  induction parts with
  | nil => exact fun _ h => absurd h (List.not_mem_nil gid)
  | cons q rest ih =>
    intro hnd hmem
    have hconv : allMembers (q :: rest) = q.2.members ++ allMembers rest := rfl
    rw [hconv] at hnd hmem
    rw [List.filter_cons]
    by_cases hq : gid ∈ q.2.members
    · rw [if_pos (decide_eq_true hq)]
      have hdisjoint := (List.nodup_append.mp hnd).2.2
      have hnone : rest.filter (fun q2 => decide (gid ∈ q2.2.members)) = [] := by
        rw [List.filter_eq_nil_iff]
        intro q2 hq2
        simp only [decide_eq_true_eq]
        intro hgm
        exact hdisjoint hq (List.mem_flatMap.mpr ⟨q2, hq2, hgm⟩)
      rw [List.length_cons, hnone]
      rfl
    · rw [if_neg (by rw [decide_eq_false hq]; exact Bool.false_ne_true)]
      rcases List.mem_append.mp hmem with h | h
      · exact absurd h hq
      · exact ih (List.nodup_append.mp hnd).2.1 h

/-- Claim C7: for a well-keyed population enumerated by `unpart0` without
duplicates, with at least as many genomes as prior species, pairwise
distinct prior species ids, and a fresh-pid counter above every prior id
(all guaranteed by the global `itertools.count` counters in the source),
`Population.partition` succeeds, every genome id of the population ends up
in the member list of exactly one species, and every species holds one
representative which is a genome of the current population. -/
theorem C7_partition_invariant (pop : List (Int × Genome)) (parts : List (Int × Partition))
    (unpart0 : List Int) (cnt0 : Int)
    (hkeys : ∀ r ∈ pop, (r : Int × Genome).2.key = r.1)
    (hup : List.Perm unpart0 (dictKeys pop))
    (hnodup : (dictKeys pop).Nodup)
    (hnd : (parts.map Prod.fst).Nodup)
    (hbound : ∀ pid ∈ parts.map Prod.fst, pid < cnt0)
    (hlen : parts.length ≤ pop.length) :
    ∃ res, populationPartition pop parts unpart0 cnt0 = some res
      ∧ (∀ gid ∈ dictKeys pop,
          (res.filter (fun q => decide (gid ∈ q.2.members))).length = 1)
      ∧ ∀ q ∈ res, ∃ r ∈ pop,
          (r : Int × Genome).2 = (q : Int × Partition).2.representative := by
  have hsub : ∀ gid ∈ unpart0, gid ∈ dictKeys pop := fun gid hg => hup.mem_iff.mp hg
  have hlen0 : parts.length ≤ unpart0.length := by
    rw [hup.length_eq, dictKeys, List.length_map]
    exact hlen
  obtain ⟨res, hrun, hperm, hrep⟩ :=
    populationPartition_spec pop parts unpart0 cnt0 hkeys hsub hnd hbound hlen0
  refine ⟨res, hrun, ?_, hrep⟩
  intro gid hgid
  have hpermpop : List.Perm (allMembers res) (dictKeys pop) := hperm.trans hup
  exact members_count_one res (hpermpop.nodup_iff.mpr hnodup) (hpermpop.mem_iff.mpr hgid)

/-- Witness for C7: the one-genome population `[(1, gW)]` with no prior
species and fresh-pid counter 1. -/
theorem C7_partition_invariant_witness :
    ∃ res, populationPartition [((1 : Int), gW)] [] [(1 : Int)] 1 = some res
      ∧ (∀ gid ∈ dictKeys [((1 : Int), gW)],
          (res.filter (fun q => decide (gid ∈ q.2.members))).length = 1)
      ∧ ∀ q ∈ res, ∃ r ∈ [((1 : Int), gW)],
          (r : Int × Genome).2 = (q : Int × Partition).2.representative :=
  C7_partition_invariant [((1 : Int), gW)] [] [(1 : Int)] 1 (by decide) (by decide)
    (by decide) (by decide) (by decide) (by decide)

end PyNeat
